import Mathlib

/-!
go-xmlarchiver: settle tracker, event filter, delivery queue and archive commit

A shallow embedding of `main.go`.

* The tracker is the global `fileMap` (path to countdown) together with the two
  pieces of code that change it: the assignment `fileMap[ev.Name] = 5` of the
  watcher goroutine and the sweep of the ticker goroutine.
* The event filter is the guard in front of that assignment.
* The delivery queue is the unbuffered channel `queue` with its single consumer.
* The archive commit is `doZip` with `AddFileToZip`, run over a filesystem that
  maps paths to files. The error values `doZip` drops are followed to where they
  matter: a nil file behind the zip writer, whose buffer then fails once it is
  full, and the nil values on which the copy loop panics.

A Go map is represented by an association list. The functions below accept any
list; the statements that need the keys to be distinct say so with `WF`.
-/

namespace XmlArchiver

/-! ## Settle tracker -/

/-- Value of a Go `int` (64 bit, two's complement) after an arithmetic result `x`. -/
def wrapInt (x : Int) : Int :=
  (x + 9223372036854775808) % 18446744073709551616 - 9223372036854775808

/-- The global `fileMap = map[string]int{}` as an association list. -/
abbrev FileMap := List (String × Int)

/-- Distinct keys: the lists that stand for a Go map. -/
def WF (m : FileMap) : Prop := (m.map Prod.fst).Nodup

instance (m : FileMap) : Decidable (WF m) :=
  inferInstanceAs (Decidable (m.map Prod.fst).Nodup)

/-- Go's `fileMap[p]` read with the presence flag: `some c` when `p` is a key. -/
def lookup : FileMap → String → Option Int
  | [], _ => none
  | (q, c) :: rest, p => if q = p then some c else lookup rest p

/-- Go's `fileMap[p] = v`: overwrite the entry of `p`, or add one. -/
def assign : FileMap → String → Int → FileMap
  | [], p, v => [(p, v)]
  | (q, c) :: rest, p, v => if q = p then (q, v) :: rest else (q, c) :: assign rest p v

/-- The watcher's critical section (`main.go` 138-140): `fileMap[ev.Name] = 5`. -/
def touch (m : FileMap) (p : String) : FileMap := assign m p 5

/-- One iteration of the ticker's `for file, countdown := range fileMap`
(`main.go` 162-170) on the entry `(file, countdown)`: the entry afterwards and
the paths sent on `queue`. The body reads and writes the entry of `file` only. -/
def sweepEntry (e : String × Int) : (String × Int) × List String :=
  let countdown := wrapInt (e.2 - 1)
  (if countdown ≥ 0 then (e.1, countdown) else e,
   if countdown = 0 then [e.1] else [])

/-- One sweep of the ticker goroutine (`main.go` 161-171): the map afterwards
and the paths sent on `queue`, in the order the entries were visited. Go visits
the keys of a map in no fixed order; the list order stands for the order of one
run. A send is recorded when the sweep performs it. -/
def Tick (m : FileMap) : FileMap × List String :=
  (m.map (fun e => (sweepEntry e).1), m.flatMap (fun e => (sweepEntry e).2))

/-- The two operations on the tracker. -/
inductive Step where
  | Touch (p : String)
  | Tick
  deriving DecidableEq

/-- The map after one step. -/
def stepMap (m : FileMap) : Step → FileMap
  | .Touch p => touch m p
  | .Tick => (Tick m).1

/-- What one step sends on `queue`. -/
def stepSent (m : FileMap) : Step → List String
  | .Touch _ => []
  | .Tick => (Tick m).2

/-- The map after a sequence of steps. -/
def exec : FileMap → List Step → FileMap
  | m, [] => m
  | m, s :: rest => exec (stepMap m s) rest

/-- The sends of a sequence of steps, one list per step. -/
def sent : FileMap → List Step → List (List String)
  | _, [] => []
  | m, s :: rest => stepSent m s :: sent (stepMap m s) rest

/-- Timing condition on the touches of `p` in a sequence: once `p` has been
touched, fewer than five ticks pass before the sequence ends or `p` is touched
again. The second argument is the number of ticks since the last touch of `p`
(`none` before the first touch). -/
def touchesInTime (p : String) : Option Nat → List Step → Bool
  | _, [] => true
  | q, .Touch r :: s => if r = p then touchesInTime p (some 0) s else touchesInTime p q s
  | none, .Tick :: s => touchesInTime p none s
  | some n, .Tick :: s => decide (n + 1 < 5) && touchesInTime p (some (n + 1)) s

/-- The entries of a map stored under the key `p`. -/
def entriesOf (p : String) (m : FileMap) : FileMap := m.filter (fun e => e.1 = p)


/-- How the map tracks `p` given the ticks since its last touch: not at all
before the first touch, and once with countdown `5 - n` after `n < 5` ticks. -/
def trackedAs (p : String) (q : Option Nat) (m : FileMap) : Prop :=
  match q with
  | none => entriesOf p m = []
  | some n => n < 5 ∧ entriesOf p m = [(p, 5 - (n : Int))]

/-- Every stored countdown lies in `[0, 5]`. -/
def InRange (m : FileMap) : Prop := ∀ e ∈ m, 0 ≤ e.2 ∧ e.2 ≤ 5

/-! ## Event filter -/

/-- Go's `os.IsPathSeparator` on Windows, the platform the program is built
for (it loads `kernel32.dll`): backslash or slash. -/
def IsPathSeparator (c : Char) : Bool := c = '\\' || c = '/'

/-- The loop of Go's `filepath.Ext`, run on the path read from its last
character backwards: stop with the empty extension at a path separator or at
the start of the path, stop with the suffix read so far at the first dot. -/
def extScan : List Char → List Char → List Char
  | [], _ => []
  | c :: rest, acc =>
    if IsPathSeparator c then []
    else if c = '.' then c :: acc
    else extScan rest (c :: acc)

/-- Go's `filepath.Ext`: the suffix beginning at the final dot of the final
path element, or the empty string. -/
def Ext (path : String) : String := ⟨extScan path.data.reverse []⟩

/-- Lower case of one ASCII character: `'A'..'Z'` move up by `'a' - 'A'`. -/
def lowerChar (c : Char) : Char :=
  if 65 ≤ c.toNat ∧ c.toNat ≤ 90 then Char.ofNat (c.toNat + 32) else c

/-- Go's `strings.ToLower` on an ASCII string. -/
def ToLower (s : String) : String := ⟨s.data.map lowerChar⟩

/-- The bit `fsnotify.Write` (`1 << 1`) of an event's `Op`. -/
def Write : Nat := 2

/-- An `fsnotify.Event`: the path and the bit set of operations. -/
structure Event where
  Name : String
  Op : Nat

/-- The guard of the watcher goroutine (`main.go` 136-137). -/
def accepts (ev : Event) : Bool :=
  let fileExtension := ToLower (Ext ev.Name)
  fileExtension = ".xml" && ev.Op &&& Write = Write

/-- The watcher goroutine's handling of one event (`main.go` 131-141). -/
def onEvent (m : FileMap) (ev : Event) : FileMap :=
  if accepts ev then touch m ev.Name else m

/-- The last four characters of a string, lower-cased. -/
def lowerTail4 (s : String) : List Char :=
  (s.data.drop (s.data.length - 4)).map lowerChar

/-! ## Delivery queue -/

/-- Where the consumer goroutine (`main.go` 147-156) stands. -/
inductive Consumer where
  /-- At `filename := <-queue`. -/
  | Receive
  /-- At `queue <- filename`, after `doZip` has failed for `filename`. -/
  | Resend (filename : String)
  /-- At `time.Sleep(1 * time.Second)`. -/
  | Sleep
  deriving DecidableEq

/-- The channel `queue := make(chan string)` with its two users. The channel has
no buffer, so it holds nothing itself: `pending` are the sends the ticker
goroutine has reached and not completed, `delivered` the paths `doZip` has been
called with. -/
structure QueueState where
  pending : List String
  consumer : Consumer
  delivered : List String
  deriving DecidableEq

/-- One step of the consumer goroutine, `none` when it is blocked. `zipFails f n`
tells whether `doZip` fails for `f` when it has been called `n` times for `f`
before. A send on the unbuffered channel completes only when another goroutine
receives; the only receive in the program is the consumer's own, so its send
`queue <- filename` never completes. -/
def consumerStep (zipFails : String → Nat → Bool) (s : QueueState) : Option QueueState :=
  match s.consumer with
  | .Receive =>
    match s.pending with
    | [] => none
    | filename :: rest =>
      some { pending := rest
             consumer :=
               if zipFails filename (s.delivered.count filename) then .Resend filename
               else .Sleep
             delivered := s.delivered ++ [filename] }
  | .Resend _ => none
  | .Sleep => some { s with consumer := .Receive }

/-- The step relation of the queue: the ticker reaches a send, or the consumer moves. -/
inductive Next (zipFails : String → Nat → Bool) : QueueState → QueueState → Prop where
  | arrive (s : QueueState) (file : String) :
      Next zipFails s { s with pending := s.pending ++ [file] }
  | consume (s s' : QueueState) (h : consumerStep zipFails s = some s') :
      Next zipFails s s'

/-- An archiver that fails on the first call for a path and succeeds afterwards. -/
def failsFirst : String → Nat → Bool := fun _ n => n == 0

/-! ## Archive commit -/

/-- File contents and entry contents are byte strings. -/
abbrev Bytes := List Nat

/-- Compression method `zip.Store`. -/
def Store : Nat := 0

/-- Compression method `zip.Deflate`. -/
def Deflate : Nat := 8

/-- The fields of `zip.FileHeader` the program reads or sets. -/
structure FileHeader where
  Name : String
  Modified : Nat
  Mode : Nat
  Method : Nat
  UncompressedSize64 : Nat
  deriving DecidableEq

/-- One `zip.File` of an archive: its header and its decompressed bytes. -/
structure ZipEntry where
  header : FileHeader
  data : Bytes
  deriving DecidableEq

/-- What a file holds: bytes that do not open as a zip archive, or an archive
with its entries in order. -/
inductive Content where
  | raw (bytes : Bytes)
  | archive (entries : List ZipEntry)
  deriving DecidableEq

/-- One file of the filesystem. -/
structure File where
  content : Content
  modTime : Nat
  mode : Nat
  deriving DecidableEq

/-- The filesystem: a map from paths to files. -/
abbrev FS := String → Option File

/-- The library calls of `doZip` and `AddFileToZip` that return an error value.
`ItemOpen i`, `ItemFileInfoHeader i` and `CopyItem i` are the `zipItem.Open()`,
the `zip.FileInfoHeader` and the `io.Copy` of entry number `i` of the previous
archive. -/
inductive Call where
  | Remove
  | Stat
  | Rename
  | Create
  | OpenReader
  | ItemOpen (i : Nat)
  | ItemFileInfoHeader (i : Nat)
  | CopyItem (i : Nat)
  | Open
  | FileStat
  | FileInfoHeader
  | CreateHeader
  | Copy
  deriving DecidableEq

/-- A non-nil Go `error`, named by the call that returned it. -/
abbrev Error := Call

/-- How a call of `doZip` ends: it returns an error value (`none` is Go's nil),
or a nil dereference in the copy loop panics and `doZip` does not return. -/
inductive Exit where
  | returned (r : Option Error)
  | panicked
  deriving DecidableEq

/-- What the program does not decide itself. -/
structure Env where
  /-- The calls that fail for a cause the filesystem map does not show (a lock,
  a read error, a header the format rejects). A write to the archive fails in
  the model only when no file is behind the writer. -/
  fails : Call → Bool
  /-- How many bytes a failing `io.Copy` has written. -/
  copiedLen : Nat
  /-- Modification time given to a file that is written. -/
  now : Nat
  /-- Base name of a path, as `FileInfo.Name()` reports it. -/
  baseName : String → String
  /-- The bytes of an archive file, read as a plain file. -/
  zipBytes : List ZipEntry → Bytes
  /-- The bytes of the new archive found on disk while the commit is writing it. -/
  flushed : Bytes
  /-- The length of the local file header the zip writer writes for a header. -/
  headerLen : FileHeader → Nat
  /-- How many bytes the deflate compressor passes on while data are copied
  into an entry; it holds the rest back until the entry is closed. -/
  deflatedLen : Bytes → Nat
  /-- How many bytes are written when an entry is closed: the rest of the
  compressed data and the data descriptor. -/
  closeLen : ZipEntry → Nat

/-- The `fs.FileInfo` values the program uses. -/
structure FileInfo where
  name : String
  size : Nat
  modTime : Nat
  mode : Nat
  deriving DecidableEq

/-- The filesystem with `path` set to `file`. -/
def FS.set (fs : FS) (path : String) (file : Option File) : FS :=
  fun p => if p = path then file else fs p

/-- Go's `os.Remove`. -/
def osRemove (env : Env) (fs : FS) (path : String) : FS × Option Error :=
  match fs path with
  | none => (fs, some .Remove)
  | some _ => if env.fails .Remove then (fs, some .Remove) else (fs.set path none, none)

/-- The bytes read from a file. -/
def fileBytes (env : Env) (f : File) : Bytes :=
  match f.content with
  | .raw bytes => bytes
  | .archive entries => env.zipBytes entries

/-- The `FileInfo` of a file on disk. -/
def fileInfo (env : Env) (path : String) (f : File) : FileInfo :=
  { name := env.baseName path, size := (fileBytes env f).length,
    modTime := f.modTime, mode := f.mode }

/-- Go's `os.Stat`. -/
def osStat (env : Env) (fs : FS) (path : String) : Except Error FileInfo :=
  match fs path with
  | none => .error .Stat
  | some f => if env.fails .Stat then .error .Stat else .ok (fileInfo env path f)

/-- Go's `os.Rename`: the file moves to the new path, replacing what was there. -/
def osRename (env : Env) (fs : FS) (oldpath newpath : String) : FS × Option Error :=
  match fs oldpath with
  | none => (fs, some .Rename)
  | some f =>
    if env.fails .Rename then (fs, some .Rename)
    else ((fs.set oldpath none).set newpath (some f), none)

/-- Go's `os.Create`: the file is created or truncated; the handle is its path,
`none` when the call fails. Until the writer is closed the model shows the file
with the bytes `env.flushed`. -/
def osCreate (env : Env) (fs : FS) (path : String) : FS × Option String :=
  if env.fails .Create then (fs, none)
  else (fs.set path (some { content := .raw env.flushed, modTime := env.now, mode := 438 }),
        some path)

/-- The size of the `bufio.Writer` that `zip.NewWriter` puts in front of the file. -/
def bufferSize : Nat := 4096

/-- A `zip.Writer`: the file it writes to (`none` is the nil file left by a failed
`os.Create`), the entries written so far, whether the last of them is still
open, and the state of the buffer in front of a nil file: the bytes it holds and
whether its write error is set. -/
structure ZipWriter where
  target : Option String
  files : List ZipEntry
  lastOpen : Bool
  buffered : Nat
  broken : Bool
  deriving DecidableEq

/-- Go's `zip.NewWriter`. -/
def NewWriter (targetFile : Option String) : ZipWriter :=
  { target := targetFile, files := [], lastOpen := false, buffered := 0, broken := false }

/-- The writer after `n` bytes were handed to its buffer. With a file behind the
buffer every flush succeeds. A nil file takes nothing: the buffer keeps what fits
in `bufferSize` bytes, and the write that passes it sets the write error, which
every later write returns. -/
def ZipWriter.emit (w : ZipWriter) (n : Nat) : ZipWriter :=
  match w.target with
  | some _ => w
  | none =>
    if w.broken then w
    else if w.buffered + n > bufferSize then { w with broken := true }
    else { w with buffered := w.buffered + n }

/-- The start of `CreateHeader`: an entry that is still open is closed. -/
def ZipWriter.closeLast (env : Env) (w : ZipWriter) : ZipWriter :=
  if w.lastOpen then
    match w.files.getLast? with
    | some e => { w.emit (env.closeLen e) with lastOpen := false }
    | none => { w with lastOpen := false }
  else w

/-- Go's `CreateHeader`, as far as writing goes: the open entry is closed and the
local file header written. The flag tells whether the call succeeded; it fails
when a write fails, and then adds no entry. -/
def ZipWriter.CreateHeader (env : Env) (w : ZipWriter) (header : FileHeader) :
    ZipWriter × Bool :=
  let w1 := (w.closeLast env).emit (env.headerLen header)
  if w1.broken then (w1, false)
  else ({ w1 with
            files := w1.files ++ [{ header := { header with UncompressedSize64 := 0 }, data := [] }]
            lastOpen := true }, true)

/-- The entries with the data of the last one set; the writer records the size
of what was written. -/
def setLastData (files : List ZipEntry) (data : Bytes) : List ZipEntry :=
  match files.getLast? with
  | none => files
  | some e =>
    files.dropLast ++
      [{ header := { e.header with UncompressedSize64 := data.length }, data := data }]

/-- Go's `io.Copy` of `data` into the open entry. A failing read (`readFails`)
ends the copy after `env.copiedLen` bytes. An entry of method `Store` passes the
bytes on as they come, any other what the compressor lets through. The flag
tells whether the call succeeded; it fails when the read or a write fails. -/
def ZipWriter.Copy (env : Env) (w : ZipWriter) (readFails : Bool) (data : Bytes) :
    ZipWriter × Bool :=
  let copied := if readFails then data.take env.copiedLen else data
  let n := match w.files.getLast? with
    | some e => if e.header.Method = Store then copied.length else env.deflatedLen copied
    | none => 0
  let w1 := w.emit n
  ({ w1 with files := setLastData w1.files copied }, !(readFails || w1.broken))

/-- Go's `zip.OpenReader`: the entries of the archive at `path`. -/
def OpenReader (env : Env) (fs : FS) (path : String) : Except Error (List ZipEntry) :=
  match fs path with
  | none => .error .OpenReader
  | some f =>
    match f.content with
    | .raw _ => .error .OpenReader
    | .archive entries => if env.fails .OpenReader then .error .OpenReader else .ok entries

/-- Go's `zip.FileInfoHeader`: name, size, modification time and mode come from
the `FileInfo`; the method is left at its zero value `zip.Store`. -/
def FileInfoHeader (fi : FileInfo) : FileHeader :=
  { Name := fi.name, Modified := fi.modTime, Mode := fi.mode, Method := Store,
    UncompressedSize64 := fi.size }

/-- The `FileInfo()` of an archive entry. -/
def ZipEntry.FileInfo (env : Env) (e : ZipEntry) : FileInfo :=
  { name := env.baseName e.header.Name, size := e.header.UncompressedSize64,
    modTime := e.header.Modified, mode := e.header.Mode }

/-- Whether `zipItem.Open()` returns a reader: the package decompresses the
methods `Store` and `Deflate` only. -/
def itemOpens (env : Env) (i : Nat) (zipItem : ZipEntry) : Bool :=
  (decide (zipItem.header.Method = Store) || decide (zipItem.header.Method = Deflate)) &&
    !env.fails (.ItemOpen i)

/-- One iteration of the copy loop of `doZip` (`main.go` 97-103), for entry
number `i` of the previous archive: the writer afterwards and whether the
iteration panicked. Every error value is dropped, so a failed call leaves a nil
value behind: a nil header panics at `header.Name = zipItem.Name`, a nil reader
when `io.Copy` reads from it, a nil `targetItem` when `io.Copy` writes the first
bytes to it. -/
def copyItem (env : Env) (w : ZipWriter) (i : Nat) (zipItem : ZipEntry) : ZipWriter × Bool :=
  let opened := itemOpens env i zipItem
  if env.fails (.ItemFileInfoHeader i) then (w, true)
  else
    let header := FileInfoHeader (zipItem.FileInfo env)
    let header := { header with Name := zipItem.header.Name }
    let targetItem := w.CreateHeader env header
    if targetItem.2 then
      if opened then ((targetItem.1.Copy env (env.fails (.CopyItem i)) zipItem.data).1, false)
      else (targetItem.1, true)
    else
      if opened && zipItem.data.isEmpty then (targetItem.1, false)
      else (targetItem.1, true)

/-- The copy loop of `doZip` over the entries from number `i` on; it ends at the
first panic. -/
def copyItems (env : Env) (w : ZipWriter) : Nat → List ZipEntry → ZipWriter × Bool
  | _, [] => (w, false)
  | i, zipItem :: rest =>
    let item := copyItem env w i zipItem
    if item.2 then (item.1, true) else copyItems env item.1 (i + 1) rest

/-- `AddFileToZip` (`main.go` 43-79): the writer afterwards and the returned error. -/
def AddFileToZip (env : Env) (fs : FS) (zipWriter : ZipWriter) (filename : String) :
    ZipWriter × Option Error :=
  match fs filename with
  | none => (zipWriter, some .Open)
  | some fileToZip =>
    if env.fails .Open then (zipWriter, some .Open)
    else if env.fails .FileStat then (zipWriter, some .FileStat)
    else
      let info := fileInfo env filename fileToZip
      if env.fails .FileInfoHeader then (zipWriter, some .FileInfoHeader)
      else
        let header := FileInfoHeader info
        let header := { header with Name := filename }
        let header := { header with Method := Deflate }
        if env.fails .CreateHeader then (zipWriter, some .CreateHeader)
        else
          let writer := zipWriter.CreateHeader env header
          if writer.2 then
            let copied := writer.1.Copy env (env.fails .Copy) (fileBytes env fileToZip)
            if copied.2 then (copied.1, none) else (copied.1, some .Copy)
          else (writer.1, some .CreateHeader)

/-- The deferred `targetZipWriter.Close()` and `targetFile.Close()`: the file
the writer was created on now holds the archive written. They also run when
`doZip` panics. -/
def closeWriter (env : Env) (fs : FS) (w : ZipWriter) : FS :=
  match w.target with
  | none => fs
  | some path => fs.set path (some { content := .archive w.files, modTime := env.now, mode := 438 })

/-- The archive name, the constant `ZIPARCHIV` of `main.go`. -/
def ZIPARCHIV : String := "xml_archive.zip"

/-- The staging name `string('_') + ziparchive`. -/
def oldFilePath (ziparchive : String) : String := "_" ++ ziparchive

/-- The filesystem after `os.Remove(oldFilePath)` (`main.go` 84). -/
def afterRemove (env : Env) (fs : FS) (ziparchive : String) : FS :=
  (osRemove env fs (oldFilePath ziparchive)).1

/-- The filesystem after the stat and rename of `main.go` 85-88, with the flag `append`. -/
def afterRename (env : Env) (fs : FS) (ziparchive : String) : FS × Bool :=
  let fs1 := afterRemove env fs ziparchive
  match osStat env fs1 ziparchive with
  | .ok _ => ((osRename env fs1 ziparchive (oldFilePath ziparchive)).1, true)
  | .error _ => (fs1, false)

/-- The part of `doZip` before the call of `AddFileToZip` (`main.go` 82-108): the
filesystem, the writer with the entries of the previous archive copied, and
whether the copy loop panicked. -/
def prepare (env : Env) (fs : FS) (ziparchive : String) : FS × ZipWriter × Bool :=
  let (fs2, append) := afterRename env fs ziparchive
  let (fs3, targetFile) := osCreate env fs2 ziparchive
  let targetZipWriter := NewWriter targetFile
  if append then
    match OpenReader env fs3 (oldFilePath ziparchive) with
    | .ok files => (fs3, copyItems env targetZipWriter 0 files)
    | .error _ => (fs3, targetZipWriter, false)
  else (fs3, targetZipWriter, false)

/-- `doZip` (`main.go` 81-114): the filesystem it leaves and how it ends. -/
def doZip (env : Env) (fs : FS) (ziparchive file : String) : FS × Exit :=
  let (fs3, targetZipWriter, panicked) := prepare env fs ziparchive
  if panicked then (closeWriter env fs3 targetZipWriter, .panicked)
  else
    let (w, r) := AddFileToZip env fs3 targetZipWriter file
    (closeWriter env fs3 w, .returned r)

/-- No call before `AddFileToZip` fails unless the filesystem map makes it fail. -/
def NoEarlyFaults (env : Env) : Prop :=
  env.fails .Remove = false ∧ env.fails .Stat = false ∧ env.fails .Rename = false ∧
  env.fails .Create = false ∧ env.fails .OpenReader = false ∧
  ∀ i, env.fails (.CopyItem i) = false

/-- The serialised empty archive: the 22 bytes of its end-of-central-directory record. -/
def emptyArchiveBytes : Bytes := [80, 75, 5, 6] ++ List.replicate 18 0

/-- An environment in which no call fails without cause. Of `zipBytes` only the
value at the empty archive is meant. A local file header has 30 bytes and the
name, a data descriptor 16 bytes; the compressor passes a quarter of the bytes
on while they are copied and as much again when the entry is closed. -/
def quietEnv : Env :=
  { fails := fun _ => false, copiedLen := 0, now := 0, baseName := fun p => p,
    zipBytes := fun _ => emptyArchiveBytes, flushed := [],
    headerLen := fun h => 30 + h.Name.length,
    deflatedLen := fun bytes => bytes.length / 4,
    closeLen := fun e => if e.header.Method = Store then 16 else e.data.length / 4 + 16 }

/-- A filesystem given by a list of paths with their files. -/
def FS.ofList : List (String × File) → FS
  | [] => fun _ => none
  | (path, f) :: rest => (FS.ofList rest).set path (some f)

/-- A plain file with the given bytes. -/
def plainFile (bytes : Bytes) : File := { content := .raw bytes, modTime := 1, mode := 420 }

/-- An archive file with the given entries. -/
def archiveFile (entries : List ZipEntry) : File :=
  { content := .archive entries, modTime := 1, mode := 438 }

/-- The calls made by `AddFileToZip`. -/
def appendCalls : List Call :=
  [.Open, .FileStat, .FileInfoHeader, .CreateHeader, .Copy]

/-- The entry the copy loop writes for an entry of the previous archive when
its `io.Copy` succeeds. -/
def copiedEntry (e : ZipEntry) : ZipEntry :=
  { header := { Name := e.header.Name, Modified := e.header.Modified, Mode := e.header.Mode,
                Method := Store, UncompressedSize64 := e.data.length },
    data := e.data }

/-- The entry `AddFileToZip` writes for the file `f` found at `filename`. -/
def addedEntry (env : Env) (filename : String) (f : File) : ZipEntry :=
  { header := { Name := filename, Modified := f.modTime, Mode := f.mode, Method := Deflate,
                UncompressedSize64 := (fileBytes env f).length },
    data := fileBytes env f }

/-- The environment `quietEnv` with a failing `os.Remove`. -/
def removeFailsEnv : Env :=
  { quietEnv with fails := fun c => decide (c = Call.Remove) }

/-- The environment `quietEnv` with a failing `os.Create`. -/
def createFailsEnv : Env :=
  { quietEnv with fails := fun c => decide (c = Call.Create) }

/-- The environment `quietEnv` with a failing `os.Rename`. -/
def renameFailsEnv : Env :=
  { quietEnv with fails := fun c => decide (c = Call.Rename) }

/-- The header `AddFileToZip` hands to `CreateHeader` for the file `f` found at
`filename`. -/
def appendHeader (env : Env) (filename : String) (f : File) : FileHeader :=
  { FileInfoHeader (fileInfo env filename f) with Name := filename, Method := Deflate }

/-- The four steps of `AddFileToZip` all succeed on the filesystem `fs` and the
writer `w`: the file opens, its stat succeeds, its header is created and
written, and its bytes are copied. -/
def AppendSucceeds (env : Env) (fs : FS) (w : ZipWriter) (filename : String) : Prop :=
  ∃ f, (fs filename = some f ∧ env.fails .Open = false) ∧
    env.fails .FileStat = false ∧
    (env.fails .FileInfoHeader = false ∧ env.fails .CreateHeader = false ∧
      (w.CreateHeader env (appendHeader env filename f)).2 = true) ∧
    ((w.CreateHeader env (appendHeader env filename f)).1.Copy env (env.fails .Copy)
      (fileBytes env f)).2 = true

/-- A directory with two XML files and no archive yet. -/
def twoFiles : FS :=
  FS.ofList [("a.xml", plainFile [1, 2, 3]), ("b.xml", plainFile [4, 5])]

/-- A directory with an empty archive and a plain file at the staging name. -/
def clashFS : FS :=
  FS.ofList [(ZIPARCHIV, archiveFile []), (oldFilePath ZIPARCHIV, plainFile [1, 2, 3])]

/-- A directory with only an empty archive. -/
def onlyArchive : FS := FS.ofList [(ZIPARCHIV, archiveFile [])]

/-- A directory with no archive and a plain file at the staging name. -/
def staleFS : FS := FS.ofList [(oldFilePath ZIPARCHIV, plainFile [1, 2, 3])]

/-- The contents of the file at a path. -/
def contentAt (fs : FS) (path : String) : Option Content := (fs path).map File.content

/-- A directory whose archive holds one entry of 5000 bytes, with the file `b.xml`. -/
def bigArchiveFS : FS :=
  FS.ofList [(ZIPARCHIV, archiveFile [⟨⟨"a.xml", 1, 420, Deflate, 5000⟩, List.replicate 5000 7⟩]),
             ("b.xml", plainFile [4, 5])]

/-- A directory whose archive holds one entry of method 12 (bzip2), with the file `b.xml`. -/
def oddArchiveFS : FS :=
  FS.ofList [(ZIPARCHIV, archiveFile [⟨⟨"a.xml", 1, 420, 12, 3⟩, [1, 2, 3]⟩]),
             ("b.xml", plainFile [4, 5])]

/-- A directory whose archive holds the entry `a.xml`, with the file `b.xml`. -/
def smallArchiveFS : FS :=
  FS.ofList [(ZIPARCHIV, archiveFile [⟨⟨"a.xml", 1, 420, Deflate, 3⟩, [1, 2, 3]⟩]),
             ("b.xml", plainFile [4, 5])]

/-! ## Facts about the tracker -/

theorem wrapInt_small (x : Int) (h1 : -9223372036854775808 ≤ x)
    (h2 : x < 9223372036854775808) : wrapInt x = x := by
  unfold wrapInt; omega

theorem sweepEntry_fst_fst (e : String × Int) : (sweepEntry e).1.1 = e.1 := by
  unfold sweepEntry
  by_cases h : wrapInt (e.2 - 1) ≥ 0 <;> simp [h]

theorem sweepEntry_snd_subset (e : String × Int) (q : String)
    (h : q ∈ (sweepEntry e).2) : q = e.1 := by
  unfold sweepEntry at h
  by_cases h0 : wrapInt (e.2 - 1) = 0 <;> simp [h0] at h
  exact h

theorem sweepEntry_of_range (p : String) (c : Int) (h0 : 0 ≤ c) (h5 : c ≤ 5) :
    sweepEntry (p, c) =
      ((p, if 1 ≤ c then c - 1 else c), if c = 1 then [p] else []) := by
  have hw : wrapInt (c - 1) = c - 1 := wrapInt_small _ (by omega) (by omega)
  unfold sweepEntry
  simp only [hw]
  by_cases h1 : 1 ≤ c
  · have : c - 1 ≥ 0 := by omega
    by_cases h2 : c = 1
    · subst h2; simp
    · have : ¬ (c - 1 = 0) := by omega
      simp [*]
  · have hc : c = 0 := by omega
    subst hc; simp

theorem entriesOf_Tick (p : String) (m : FileMap) :
    entriesOf p (Tick m).1 = (entriesOf p m).map (fun e => (sweepEntry e).1) := by
  unfold entriesOf Tick
  induction m with
  | nil => rfl
  | cons e rest ih =>
    simp only [List.map_cons, List.filter_cons, sweepEntry_fst_fst]
    by_cases h : e.1 = p
    · simp only [h, decide_True, if_true, List.map_cons]
      simp only [] at ih
      rw [ih]
    · simp only [h, decide_False]
      simpa using ih

theorem count_Tick (p : String) (m : FileMap) :
    (Tick m).2.count p = ((entriesOf p m).flatMap (fun e => (sweepEntry e).2)).count p := by
  unfold entriesOf Tick
  induction m with
  | nil => rfl
  | cons e rest ih =>
    simp only [List.flatMap_cons, List.count_append, List.filter_cons]
    simp only [] at ih
    by_cases h : e.1 = p
    · simp only [h, decide_True, if_true, List.flatMap_cons, List.count_append, ih]
    · have hz : List.count p (sweepEntry e).2 = 0 := by
        apply List.count_eq_zero.mpr
        intro hin
        exact h (sweepEntry_snd_subset e p hin).symm
      simp only [h, decide_False, hz, ih]
      simp

theorem entriesOf_assign (p q : String) (v : Int) (m : FileMap) :
    entriesOf p (assign m q v) =
      if q = p then
        (match entriesOf p m with
          | [] => [(p, v)]
          | _ :: t => (p, v) :: t)
      else entriesOf p m := by
  unfold entriesOf
  induction m with
  | nil =>
    by_cases h : q = p
    · subst h; simp [assign]
    · simp [assign, h]
  | cons e rest ih =>
    obtain ⟨k, c⟩ := e
    by_cases hk : k = q
    · subst hk
      by_cases h : k = p
      · subst h; simp [assign, List.filter_cons]
      · simp [assign, List.filter_cons, h]
    · by_cases h : q = p
      · subst h
        simp only [assign, hk, if_false, List.filter_cons, decide_False, if_true] at ih ⊢
        simpa using ih
      · simp only [h, if_false] at ih
        simp only [assign, hk, if_false, List.filter_cons, h]
        by_cases hkp : k = p
        · simp [hkp, ih]
        · simp [hkp, ih]

theorem lookup_eq_head (m : FileMap) (p : String) :
    lookup m p = (entriesOf p m).head?.map Prod.snd := by
  unfold entriesOf
  induction m with
  | nil => rfl
  | cons e rest ih =>
    obtain ⟨k, c⟩ := e
    by_cases h : k = p
    · simp [lookup, List.filter_cons, h]
    · simp [lookup, List.filter_cons, h, ih]

theorem entriesOf_eq_nil_of_lookup (m : FileMap) (p : String) (h : lookup m p = none) :
    entriesOf p m = [] := by
  rw [lookup_eq_head] at h
  cases hE : entriesOf p m with
  | nil => rfl
  | cons e t => rw [hE] at h; simp at h

theorem exec_append (m : FileMap) (s t : List Step) :
    exec m (s ++ t) = exec (exec m s) t := by
  induction s generalizing m with
  | nil => rfl
  | cons a s ih => simp [exec, ih]

theorem sent_append (m : FileMap) (s t : List Step) :
    sent m (s ++ t) = sent m s ++ sent (exec m s) t := by
  induction s generalizing m with
  | nil => rfl
  | cons a s ih => simp [exec, sent, ih]

theorem sent_length (m : FileMap) (s : List Step) : (sent m s).length = s.length := by
  induction s generalizing m with
  | nil => rfl
  | cons a s ih => simp [sent, ih]

theorem Tick_on_entry (p : String) (m : FileMap) (c : Int)
    (hE : entriesOf p m = [(p, c)]) (h0 : 0 ≤ c) (h5 : c ≤ 5) :
    entriesOf p (Tick m).1 = [(p, if 1 ≤ c then c - 1 else c)] ∧
    (Tick m).2.count p = (if c = 1 then 1 else 0) := by
  constructor
  · rw [entriesOf_Tick, hE]
    simp [sweepEntry_of_range p c h0 h5]
  · rw [count_Tick, hE]
    simp only [List.flatMap_cons, List.flatMap_nil, List.append_nil,
      sweepEntry_of_range p c h0 h5]
    by_cases h : c = 1 <;> simp [h]

theorem Tick_untracked (p : String) (m : FileMap) (hE : entriesOf p m = []) :
    entriesOf p (Tick m).1 = [] ∧ (Tick m).2.count p = 0 := by
  constructor
  · rw [entriesOf_Tick, hE]; rfl
  · rw [count_Tick, hE]; rfl

theorem mem_iff_count_eq_one {l : List String} {p : String} {b : Prop} [Decidable b]
    (h : l.count p = if b then 1 else 0) : p ∈ l ↔ b := by
  rw [← List.count_pos_iff, h]
  by_cases hb : b <;> simp [hb]

/-- After `k` ticks on a map that tracks `p` once with countdown `c` in `[0, 5]`:
`p` is sent in tick number `c` (if `1 ≤ c ≤ k`) and in no other one. -/
theorem ticks_phase (p : String) (k : Nat) : ∀ (m : FileMap) (c : Int),
    entriesOf p m = [(p, c)] → 0 ≤ c → c ≤ 5 →
    (∀ i, p ∈ (sent m (List.replicate k Step.Tick)).getD i [] ↔ (i < k ∧ (i : Int) + 1 = c)) ∧
    (sent m (List.replicate k Step.Tick)).flatten.count p = (if 1 ≤ c ∧ c ≤ k then 1 else 0) ∧
    entriesOf p (exec m (List.replicate k Step.Tick)) = [(p, max (c - k) 0)] := by
  induction k with
  | zero =>
    intro m c hE h0 h5
    refine ⟨?_, ?_, ?_⟩
    · intro i; simp [sent]
    · simp only [List.replicate_zero, sent, List.flatten_nil, List.count_nil]
      push_cast
      split_ifs <;> omega
    · simp only [List.replicate_zero, exec, hE]
      have : max (c - ((0 : Nat) : Int)) 0 = c := by omega
      rw [this]
  | succ k ih =>
    intro m c hE h0 h5
    obtain ⟨hT1, hT2⟩ := Tick_on_entry p m c hE h0 h5
    have h0' : (0 : Int) ≤ (if 1 ≤ c then c - 1 else c) := by split <;> omega
    have h5' : (if 1 ≤ c then c - 1 else c) ≤ 5 := by split <;> omega
    obtain ⟨ih1, ih2, ih3⟩ := ih (Tick m).1 _ hT1 h0' h5'
    refine ⟨?_, ?_, ?_⟩
    · intro i
      cases i with
      | zero =>
        simp only [List.replicate_succ, sent, stepSent, List.getD_cons_zero]
        rw [mem_iff_count_eq_one hT2]
        constructor
        · intro h; subst h; simp
        · intro h; have := h.2; simp at this; omega
      | succ i =>
        simp only [List.replicate_succ, sent, stepMap, List.getD_cons_succ]
        rw [ih1 i]
        constructor
        · rintro ⟨h1, h2⟩
          refine ⟨by omega, ?_⟩
          split at h2 <;> push_cast <;> omega
        · rintro ⟨h1, h2⟩
          refine ⟨by omega, ?_⟩
          push_cast at h2
          split <;> omega
    · simp only [List.replicate_succ, sent, stepMap, stepSent, List.flatten_cons,
        List.count_append, hT2, ih2]
      push_cast
      split_ifs <;> omega
    · simp only [List.replicate_succ, exec, stepMap, ih3]
      congr 2
      split <;> push_cast <;> omega

theorem entriesOf_touch_self (p : String) (m : FileMap)
    (h : (entriesOf p m).length ≤ 1) : entriesOf p (touch m p) = [(p, 5)] := by
  unfold touch
  rw [entriesOf_assign]
  simp only [if_true]
  cases hE : entriesOf p m with
  | nil => rfl
  | cons e t =>
    rw [hE] at h
    cases t with
    | nil => rfl
    | cons _ _ => simp at h

theorem entriesOf_touch_other (p r : String) (m : FileMap) (h : r ≠ p) :
    entriesOf p (touch m r) = entriesOf p m := by
  unfold touch
  rw [entriesOf_assign]
  simp [h]

theorem trackedAs_length (p : String) (q : Option Nat) (m : FileMap)
    (h : trackedAs p q m) : (entriesOf p m).length ≤ 1 := by
  cases q with
  | none => simp only [trackedAs] at h; simp [h]
  | some n => simp only [trackedAs] at h; simp [h.2]

/-- While the touches of `p` come in time, `p` is never sent. -/
theorem pre_phase (p : String) : ∀ (pre : List Step) (q : Option Nat) (m : FileMap),
    trackedAs p q m → touchesInTime p q pre = true →
    (∃ q', trackedAs p q' (exec m pre)) ∧ (sent m pre).flatten.count p = 0 := by
  intro pre
  induction pre with
  | nil => intro q m h _; exact ⟨⟨q, h⟩, rfl⟩
  | cons s rest ih =>
    intro q m h ht
    cases s with
    | Touch r =>
      by_cases hr : r = p
      · subst hr
        simp only [touchesInTime, if_true] at ht
        have hE := entriesOf_touch_self r m (trackedAs_length r q m h)
        have h' : trackedAs r (some 0) (touch m r) := by
          simp only [trackedAs]; exact ⟨by omega, by simpa using hE⟩
        obtain ⟨a, b⟩ := ih (some 0) (touch m r) h' ht
        exact ⟨a, by simpa [sent, stepSent, stepMap] using b⟩
      · simp only [touchesInTime, hr, if_false] at ht
        have h' : trackedAs p q (touch m r) := by
          cases q with
          | none =>
            simp only [trackedAs] at h ⊢
            rw [entriesOf_touch_other p r m hr]; exact h
          | some n =>
            simp only [trackedAs] at h ⊢
            rw [entriesOf_touch_other p r m hr]; exact h
        obtain ⟨a, b⟩ := ih q (touch m r) h' ht
        exact ⟨a, by simpa [sent, stepSent, stepMap] using b⟩
    | Tick =>
      cases q with
      | none =>
        simp only [touchesInTime] at ht
        simp only [trackedAs] at h
        obtain ⟨t1, t2⟩ := Tick_untracked p m h
        have h' : trackedAs p none (Tick m).1 := by simp only [trackedAs]; exact t1
        obtain ⟨a, b⟩ := ih none (Tick m).1 h' ht
        refine ⟨a, ?_⟩
        simp only [sent, stepSent, stepMap, List.flatten_cons, List.count_append, t2, b]
      | some n =>
        simp only [touchesInTime, Bool.and_eq_true, decide_eq_true_eq] at ht
        simp only [trackedAs] at h
        obtain ⟨t1, t2⟩ := Tick_on_entry p m (5 - (n : Int)) h.2 (by omega) (by omega)
        have h' : trackedAs p (some (n + 1)) (Tick m).1 := by
          simp only [trackedAs]
          refine ⟨ht.1, ?_⟩
          rw [t1]
          congr 2
          push_cast
          split <;> omega
        obtain ⟨a, b⟩ := ih (some (n + 1)) (Tick m).1 h' ht.2
        refine ⟨a, ?_⟩
        have hne : ¬ (5 - (n : Int) = 1) := by omega
        simp only [sent, stepSent, stepMap, List.flatten_cons, List.count_append, t2, b, hne,
          if_false]

theorem not_mem_of_flatten_count {l : List (List String)} {p : String}
    (h : l.flatten.count p = 0) : ∀ out ∈ l, p ∉ out := by
  intro out hout hp
  have : p ∈ l.flatten := List.mem_flatten.mpr ⟨out, hout, hp⟩
  exact (List.count_eq_zero.mp h) this

theorem WF_entriesOf (p : String) (m : FileMap) (h : WF m) :
    (entriesOf p m).length ≤ 1 := by
  unfold WF at h
  unfold entriesOf
  induction m with
  | nil => simp
  | cons e rest ih =>
    simp only [List.map_cons, List.nodup_cons] at h
    by_cases hk : e.1 = p
    · have hrest : rest.filter (fun e => e.1 = p) = [] := by
        apply List.filter_eq_nil_iff.mpr
        intro x hx hxp
        simp only [decide_eq_true_eq] at hxp
        apply h.1
        rw [hk, ← hxp]
        exact List.mem_map_of_mem Prod.fst hx
      simp [List.filter_cons, hk, hrest]
    · simpa [List.filter_cons, hk] using ih h.2

theorem entriesOf_key (p : String) (m : FileMap) : ∀ e ∈ entriesOf p m, e.1 = p := by
  intro e he
  unfold entriesOf at he
  simpa using (List.mem_filter.mp he).2

theorem mem_Tick_snd (p : String) (m : FileMap) (h : p ∈ (Tick m).2) :
    ∃ c, (p, c) ∈ m ∧ wrapInt (c - 1) = 0 := by
  unfold Tick at h
  simp only [List.mem_flatMap] at h
  obtain ⟨e, he, hp⟩ := h
  have hk := sweepEntry_snd_subset e p hp
  obtain ⟨k, c⟩ := e
  simp only at hk
  subst hk
  refine ⟨c, he, ?_⟩
  unfold sweepEntry at hp
  by_contra hne
  simp [hne] at hp

theorem InRange_touch (m : FileMap) (p : String) (h : InRange m) : InRange (touch m p) := by
  unfold touch
  induction m with
  | nil =>
    intro e he
    simp only [assign, List.mem_singleton] at he
    subst he; simp
  | cons x rest ih =>
    obtain ⟨k, c⟩ := x
    have hrest : InRange rest := fun e he => h e (List.mem_cons_of_mem _ he)
    intro e he
    by_cases hk : k = p
    · simp only [assign, hk, if_true, List.mem_cons] at he
      rcases he with he | he
      · subst he; simp
      · exact hrest e he
    · simp only [assign, hk, if_false, List.mem_cons] at he
      rcases he with he | he
      · subst he; exact h (k, c) (List.mem_cons_self _ _)
      · exact ih hrest e he

theorem InRange_Tick (m : FileMap) (h : InRange m) : InRange (Tick m).1 := by
  intro e he
  unfold Tick at he
  simp only [List.mem_map] at he
  obtain ⟨x, hx, rfl⟩ := he
  obtain ⟨k, c⟩ := x
  obtain ⟨h0, h5⟩ := h (k, c) hx
  simp only at h0 h5
  rw [sweepEntry_of_range k c h0 h5]
  simp only
  split <;> constructor <;> omega

theorem InRange_exec (steps : List Step) : ∀ m, InRange m → InRange (exec m steps) := by
  induction steps with
  | nil => intro m h; exact h
  | cons s rest ih =>
    intro m h
    cases s with
    | Touch p => exact ih _ (InRange_touch m p h)
    | Tick => exact ih _ (InRange_Tick m h)

theorem exec_touches (p : String) (j : Nat) (hj : 1 ≤ j) : ∀ (m : FileMap),
    (entriesOf p m).length ≤ 1 →
    entriesOf p (exec m (List.replicate j (Step.Touch p))) = [(p, 5)] ∧
    (sent m (List.replicate j (Step.Touch p))).flatten.count p = 0 := by
  induction j with
  | zero => omega
  | succ j ih =>
    intro m hm
    have hE := entriesOf_touch_self p m hm
    by_cases hj0 : j = 0
    · subst hj0
      simp [exec, sent, stepMap, stepSent, hE]
    · obtain ⟨a, b⟩ := ih (by omega) (touch m p) (by simp [hE])
      refine ⟨by simpa [List.replicate_succ, exec, stepMap] using a, ?_⟩
      simpa [List.replicate_succ, sent, stepMap, stepSent] using b

/-! ## Claims about the settle tracker -/

/-- C1: starting from a map that does not track `p`, let the touches of `p` in
`pre` come in time (fewer than five ticks between one touch of `p` and the
next), then touch `p` a last time and let `k ≥ 5` ticks follow. Over the whole
sequence `p` is sent on the queue exactly once, and the step that sends it is
the fifth tick after the last touch. -/
theorem settle_exactly_once (m : FileMap) (p : String) (pre : List Step) (k : Nat)
    (hfresh : lookup m p = none) (hpre : touchesInTime p none pre = true) (hk : 5 ≤ k) :
    (sent m (pre ++ Step.Touch p :: List.replicate k Step.Tick)).flatten.count p = 1 ∧
    ∀ i, p ∈ (sent m (pre ++ Step.Touch p :: List.replicate k Step.Tick)).getD i [] ↔
      i = pre.length + 5 := by
  have h0 : trackedAs p none m := by
    simp only [trackedAs]; exact entriesOf_eq_nil_of_lookup m p hfresh
  obtain ⟨⟨q', hq'⟩, hcount⟩ := pre_phase p pre none m h0 hpre
  have hE := entriesOf_touch_self p (exec m pre) (trackedAs_length p q' _ hq')
  obtain ⟨t1, t2, _⟩ := ticks_phase p k (touch (exec m pre) p) 5 hE (by omega) (by omega)
  have hsplit : sent m (pre ++ Step.Touch p :: List.replicate k Step.Tick) =
      sent m pre ++ ([] :: sent (touch (exec m pre) p) (List.replicate k Step.Tick)) := by
    rw [sent_append]; rfl
  rw [hsplit]
  constructor
  · have hk' : ((1 : Int) ≤ 5 ∧ (5 : Int) ≤ (k : Int)) := ⟨by omega, by omega⟩
    simp only [List.flatten_append, List.flatten_cons, List.count_append, hcount, t2,
      List.nil_append, hk', if_true, List.count_nil]
    simp
  · intro i
    by_cases hi : i < pre.length
    · have hlen : i < (sent m pre).length := by rw [sent_length]; exact hi
      rw [List.getD_append _ _ _ _ hlen, List.getD_eq_getElem _ _ hlen]
      constructor
      · intro hp
        exact absurd hp (not_mem_of_flatten_count hcount _ (List.getElem_mem _))
      · intro h; omega
    · have hlen : (sent m pre).length ≤ i := by rw [sent_length]; omega
      rw [List.getD_append_right _ _ _ _ hlen, sent_length]
      obtain ⟨j, hj⟩ : ∃ j, i = pre.length + j := ⟨i - pre.length, by omega⟩
      subst hj
      simp only [Nat.add_sub_cancel_left]
      cases j with
      | zero => simp
      | succ j =>
        rw [List.getD_cons_succ, t1 j]
        constructor
        · rintro ⟨_, h2⟩; omega
        · intro h; constructor <;> omega

/-- Witness of C1: one touch, four ticks, a second touch, then five ticks. -/
theorem settle_exactly_once_witness :
    (sent [] ((Step.Touch "a.xml" :: List.replicate 4 Step.Tick) ++
        Step.Touch "a.xml" :: List.replicate 5 Step.Tick)).flatten.count "a.xml" = 1 ∧
    ∀ i, "a.xml" ∈ (sent [] ((Step.Touch "a.xml" :: List.replicate 4 Step.Tick) ++
        Step.Touch "a.xml" :: List.replicate 5 Step.Tick)).getD i [] ↔
      i = (Step.Touch "a.xml" :: List.replicate 4 Step.Tick).length + 5 :=
  settle_exactly_once [] "a.xml" (Step.Touch "a.xml" :: List.replicate 4 Step.Tick) 5
    (by decide) (by decide) (by decide)

/-- C3: from any tracker state, one or more touches of `p` followed by `n < 5`
ticks never send `p`, and afterwards the countdown of `p` is `5 - n`. -/
theorem no_premature_settle (m : FileMap) (p : String) (j n : Nat)
    (hwf : WF m) (hj : 1 ≤ j) (hn : n < 5) :
    (∀ out ∈ sent m (List.replicate j (Step.Touch p) ++ List.replicate n Step.Tick),
      p ∉ out) ∧
    lookup (exec m (List.replicate j (Step.Touch p) ++ List.replicate n Step.Tick)) p =
      some (5 - (n : Int)) := by
  obtain ⟨a, b⟩ := exec_touches p j hj m (WF_entriesOf p m hwf)
  obtain ⟨_, t2, t3⟩ := ticks_phase p n _ 5 a (by omega) (by omega)
  constructor
  · apply not_mem_of_flatten_count
    rw [sent_append, List.flatten_append, List.count_append, b, t2]
    have : ¬ ((1 : Int) ≤ 5 ∧ (5 : Int) ≤ (n : Int)) := by omega
    rw [if_neg this]
  · rw [exec_append, lookup_eq_head, t3]
    simp only [List.head?_cons, Option.map_some']
    congr 1
    omega

/-- Witness of C3: two touches and four ticks on a map that already tracks the path. -/
theorem no_premature_settle_witness :
    (∀ out ∈ sent [("a.xml", 2)]
        (List.replicate 2 (Step.Touch "a.xml") ++ List.replicate 4 Step.Tick),
      "a.xml" ∉ out) ∧
    lookup (exec [("a.xml", 2)]
        (List.replicate 2 (Step.Touch "a.xml") ++ List.replicate 4 Step.Tick)) "a.xml" =
      some (5 - ((4 : Nat) : Int)) :=
  no_premature_settle [("a.xml", 2)] "a.xml" 2 4 (by decide) (by decide) (by decide)

/-- C5, as stated, fails: after one touch and four ticks the map is
`[("a.xml", 1)]`; the fifth tick sends `"a.xml"` and the map still has the key
`"a.xml"`, with countdown `0`. -/
theorem settled_path_still_tracked :
    exec [] (Step.Touch "a.xml" :: List.replicate 4 Step.Tick) = [("a.xml", 1)] ∧
    "a.xml" ∈ (Tick [("a.xml", 1)]).2 ∧
    lookup (Tick [("a.xml", 1)]).1 "a.xml" = some 0 ∧
    lookup (Tick [("a.xml", 1)]).1 "a.xml" ≠ none := by
  decide

/-- C5, amended: right after the tick that sends `p`, the map still has the key
`p`, with countdown `0`; through any number of further ticks the entry stays at
`0` and `p` is not sent again. -/
theorem settled_path_kept_at_zero (m : FileMap) (p : String) (k : Nat)
    (hwf : WF m) (hsent : p ∈ (Tick m).2) :
    lookup (Tick m).1 p = some 0 ∧
    lookup (exec (Tick m).1 (List.replicate k Step.Tick)) p = some 0 ∧
    ∀ out ∈ sent (Tick m).1 (List.replicate k Step.Tick), p ∉ out := by
  obtain ⟨c, hc, hw⟩ := mem_Tick_snd p m hsent
  have hlen := WF_entriesOf p m hwf
  have hmem : (p, c) ∈ entriesOf p m := by
    unfold entriesOf; exact List.mem_filter.mpr ⟨hc, by simp⟩
  have hE : entriesOf p m = [(p, c)] := by
    cases hl : entriesOf p m with
    | nil => rw [hl] at hmem; simp at hmem
    | cons e t =>
      rw [hl] at hlen hmem
      cases t with
      | nil => simp only [List.mem_singleton] at hmem; rw [hmem]
      | cons _ _ => simp at hlen
  have hE' : entriesOf p (Tick m).1 = [(p, 0)] := by
    rw [entriesOf_Tick, hE]
    simp [sweepEntry, hw]
  obtain ⟨_, t2, t3⟩ := ticks_phase p k (Tick m).1 0 hE' (by omega) (by omega)
  refine ⟨?_, ?_, ?_⟩
  · rw [lookup_eq_head, hE']; rfl
  · rw [lookup_eq_head, t3]
    simp only [List.head?_cons, Option.map_some']
    congr 1
    omega
  · apply not_mem_of_flatten_count
    rw [t2]
    have : ¬ ((1 : Int) ≤ 0 ∧ (0 : Int) ≤ (k : Int)) := by omega
    rw [if_neg this]

/-- Witness of C5 amended: the map after one touch and four ticks, then three more ticks. -/
theorem settled_path_kept_at_zero_witness :
    lookup (Tick [("a.xml", 1)]).1 "a.xml" = some 0 ∧
    lookup (exec (Tick [("a.xml", 1)]).1 (List.replicate 3 Step.Tick)) "a.xml" = some 0 ∧
    ∀ out ∈ sent (Tick [("a.xml", 1)]).1 (List.replicate 3 Step.Tick), "a.xml" ∉ out :=
  settled_path_kept_at_zero [("a.xml", 1)] "a.xml" 3 (by decide) (by decide)

/-- C9: in every tracker state reached from the empty map by touches and ticks,
every stored countdown lies in `[0, 5]`. -/
theorem countdown_in_range (steps : List Step) :
    ∀ e ∈ exec [] steps, 0 ≤ e.2 ∧ e.2 ≤ 5 :=
  InRange_exec steps [] (fun _ he => absurd he (List.not_mem_nil _))

/-- Witness of C9: the entry left by one touch and one tick. -/
theorem countdown_in_range_witness :
    0 ≤ (("a.xml", 4) : String × Int).2 ∧ (("a.xml", 4) : String × Int).2 ≤ 5 :=
  countdown_in_range [Step.Touch "a.xml", Step.Tick] ("a.xml", 4) (by decide)

/-! ## Facts about the event filter -/

theorem lowerChar_of_upper (c : Char) (h : 65 ≤ c.toNat ∧ c.toNat ≤ 90) :
    97 ≤ (lowerChar c).toNat ∧ (lowerChar c).toNat ≤ 122 := by
  unfold lowerChar
  rw [if_pos h]
  obtain ⟨h1, h2⟩ := h
  generalize c.toNat = n at h1 h2
  interval_cases n <;> decide

theorem lowerChar_dot (c : Char) (h : lowerChar c = '.') : c = '.' := by
  by_cases hu : 65 ≤ c.toNat ∧ c.toNat ≤ 90
  · have := lowerChar_of_upper c hu
    rw [h] at this
    exact absurd this (by decide)
  · unfold lowerChar at h
    rw [if_neg hu] at h
    exact h

theorem lowerChar_letter (c x : Char) (hx : 97 ≤ x.toNat ∧ x.toNat ≤ 122)
    (h : lowerChar c = x) : IsPathSeparator c = false ∧ c ≠ '.' := by
  by_cases hu : 65 ≤ c.toNat ∧ c.toNat ≤ 90
  · constructor
    · unfold IsPathSeparator
      rw [Bool.or_eq_false_iff]
      constructor
      · simp only [decide_eq_false_iff_not]
        intro hc; subst hc; revert hu; decide
      · simp only [decide_eq_false_iff_not]
        intro hc; subst hc; revert hu; decide
    · intro hc; subst hc; revert hu; decide
  · unfold lowerChar at h
    rw [if_neg hu] at h
    subst h
    constructor
    · unfold IsPathSeparator
      rw [Bool.or_eq_false_iff]
      constructor
      · simp only [decide_eq_false_iff_not]
        intro hc; subst hc; revert hx; decide
      · simp only [decide_eq_false_iff_not]
        intro hc; subst hc; revert hx; decide
    · intro hc; subst hc; revert hx; decide

theorem extScan_spec : ∀ (r acc : List Char),
    extScan r acc = [] ∨ ∃ n, n < r.length ∧ extScan r acc = (r.take (n + 1)).reverse ++ acc := by
  intro r
  induction r with
  | nil => intro acc; left; rfl
  | cons c rest ih =>
    intro acc
    by_cases hs : IsPathSeparator c = true
    · left; simp [extScan, hs]
    · by_cases hd : c = '.'
      · right
        have hdot : IsPathSeparator '.' = false := by decide
        subst hd
        refine ⟨0, by simp, ?_⟩
        simp [extScan, hdot]
      · rcases ih (c :: acc) with h | ⟨n, hn, h⟩
        · left; simp [extScan, hs, hd, h]
        · right
          refine ⟨n + 1, by simp [hn], ?_⟩
          simp [extScan, hs, hd, h, List.take_succ_cons]

theorem ext_lower_iff (s : String) :
    ToLower (Ext s) = ".xml" ↔ lowerTail4 s = ['.', 'x', 'm', 'l'] := by
  have hxml : (".xml" : String).data = ['.', 'x', 'm', 'l'] := rfl
  rw [String.ext_iff, hxml]
  unfold ToLower Ext lowerTail4
  simp only
  constructor
  · intro h
    rcases extScan_spec s.data.reverse [] with h0 | ⟨n, hn, hE⟩
    · rw [h0] at h; simp at h
    · have hlen := congrArg List.length h
      rw [hE] at hlen
      simp only [List.append_nil, List.length_map, List.length_reverse, List.length_take,
        List.length_cons, List.length_nil] at hlen
      simp only [List.length_reverse] at hn
      have hn3 : n = 3 := by omega
      subst hn3
      rw [hE] at h
      simp only [List.append_nil, List.take_reverse, List.reverse_reverse] at h
      exact h
  · intro h
    have hsplit : s.data = s.data.take (s.data.length - 4) ++ s.data.drop (s.data.length - 4) :=
      (List.take_append_drop _ _).symm
    generalize s.data.drop (s.data.length - 4) = t at h hsplit
    generalize s.data.take (s.data.length - 4) = u at hsplit
    rcases t with _ | ⟨a, _ | ⟨b, _ | ⟨c, _ | ⟨d, _ | ⟨e, t⟩⟩⟩⟩⟩ <;>
      simp only [List.map_cons, List.map_nil, List.cons.injEq, and_true, reduceCtorEq,
        and_false] at h
    obtain ⟨ha, hb, hc, hd⟩ := h
    have ha' := lowerChar_dot a ha
    subst ha'
    obtain ⟨hb1, hb2⟩ := lowerChar_letter b 'x' (by decide) hb
    obtain ⟨hc1, hc2⟩ := lowerChar_letter c 'm' (by decide) hc
    obtain ⟨hd1, hd2⟩ := lowerChar_letter d 'l' (by decide) hd
    have hs1 : IsPathSeparator '.' = false := by decide
    rw [hsplit]
    simp only [List.reverse_append, List.reverse_cons, List.reverse_nil, List.nil_append,
      List.cons_append, List.singleton_append, extScan, hb1, hc1, hd1, hs1, hb2, hc2, hd2,
      Bool.false_eq_true, if_false, if_true, List.map_cons, List.map_nil, ha, hb, hc, hd]

theorem write_bit_iff (op : Nat) : op &&& Write = Write ↔ op.testBit 1 = true := by
  have h := Nat.and_two_pow op 1
  unfold Write
  simp only [pow_one] at h
  rw [h]
  cases op.testBit 1 <;> simp

/-! ## Claim about the event filter -/

/-- C8: the watcher performs `fileMap[name] = 5` if and only if the Write bit of
`Op` is set and the last four characters of the name, lower-cased, are `.xml`;
the extension test `strings.ToLower(filepath.Ext(name)) == ".xml"` is that
suffix test; any other event leaves the map unchanged. (The characters of an
ASCII name are the bytes Go works on.) -/
theorem event_filter (m : FileMap) (ev : Event) :
    (accepts ev = true ↔
      ev.Op.testBit 1 = true ∧ lowerTail4 ev.Name = ['.', 'x', 'm', 'l']) ∧
    (ToLower (Ext ev.Name) = ".xml" ↔ lowerTail4 ev.Name = ['.', 'x', 'm', 'l']) ∧
    onEvent m ev =
      (if ev.Op.testBit 1 = true ∧ lowerTail4 ev.Name = ['.', 'x', 'm', 'l']
        then touch m ev.Name else m) := by
  have hacc : accepts ev = true ↔
      ev.Op.testBit 1 = true ∧ lowerTail4 ev.Name = ['.', 'x', 'm', 'l'] := by
    unfold accepts
    simp only [Bool.and_eq_true, decide_eq_true_eq]
    rw [ext_lower_iff, write_bit_iff]
    exact And.comm
  refine ⟨hacc, ext_lower_iff ev.Name, ?_⟩
  unfold onEvent
  by_cases h : accepts ev = true
  · rw [if_pos h, if_pos (hacc.mp h)]
  · rw [if_neg h, if_neg (fun h' => h (hacc.mpr h'))]


/-! ## Facts about the delivery queue -/

theorem Next_of_Resend (zipFails : String → Nat → Bool) (s s' : QueueState) (p : String)
    (hs : s.consumer = .Resend p) (h : Next zipFails s s') :
    s'.consumer = .Resend p ∧ s'.delivered = s.delivered := by
  cases h with
  | arrive file => exact ⟨hs, rfl⟩
  | consume _ h =>
    unfold consumerStep at h
    rw [hs] at h
    simp at h

theorem stuck_after_Resend (zipFails : String → Nat → Bool) (s s' : QueueState) (p : String)
    (hs : s.consumer = .Resend p) (h : Relation.ReflTransGen (Next zipFails) s s') :
    s'.consumer = .Resend p ∧ s'.delivered = s.delivered := by
  induction h with
  | refl => exact ⟨hs, rfl⟩
  | tail _ hstep ih =>
    obtain ⟨h1, h2⟩ := Next_of_Resend zipFails _ _ p ih.1 hstep
    exact ⟨h1, h2.trans ih.2⟩

/-! ## Claim about the delivery queue -/

/-- C7, evaluated on the code: the ticker has `a.xml` and then `b.xml` to send
and `doZip` fails on its first call for a path. The consumer receives `a.xml`,
calls `doZip`, and stands at `queue <- filename`. From there it cannot move, and
in every state the system reaches afterwards it still stands there, `doZip` has
been called for `a.xml` once and never for `b.xml`. -/
theorem retry_send_blocks_consumer :
    consumerStep failsFirst ⟨["a.xml", "b.xml"], .Receive, []⟩ =
      some ⟨["b.xml"], .Resend "a.xml", ["a.xml"]⟩ ∧
    consumerStep failsFirst ⟨["b.xml"], .Resend "a.xml", ["a.xml"]⟩ = none ∧
    ∀ s, Relation.ReflTransGen (Next failsFirst) ⟨["b.xml"], .Resend "a.xml", ["a.xml"]⟩ s →
      s.consumer = .Resend "a.xml" ∧ s.delivered = ["a.xml"] ∧
      s.delivered.count "a.xml" = 1 ∧ "b.xml" ∉ s.delivered := by
  refine ⟨by decide, by decide, ?_⟩
  intro s hs
  obtain ⟨h1, h2⟩ := stuck_after_Resend failsFirst _ s "a.xml" rfl hs
  simp only at h2
  refine ⟨h1, h2, ?_, ?_⟩
  · rw [h2]; decide
  · rw [h2]; decide

/-! ## Facts about the archive commit -/

theorem oldFilePath_ne (a : String) : oldFilePath a ≠ a := by
  intro h
  have := congrArg String.length h
  unfold oldFilePath at this
  rw [String.length_append] at this
  have h1 : ("_" : String).length = 1 := rfl
  omega

theorem FS.set_same (fs : FS) (p : String) (f : Option File) : (fs.set p f) p = f := by
  simp [FS.set]

theorem FS.set_other (fs : FS) (p q : String) (f : Option File) (h : q ≠ p) :
    (fs.set p f) q = fs q := by
  simp [FS.set, h]

theorem afterRemove_apply (env : Env) (fs : FS) (a p : String)
    (hrm : env.fails .Remove = false) :
    afterRemove env fs a p = if p = oldFilePath a then none else fs p := by
  unfold afterRemove osRemove
  cases h : fs (oldFilePath a) with
  | none =>
    by_cases hp : p = oldFilePath a
    · simp [hp, h]
    · simp [hp]
  | some f =>
    simp only [hrm, Bool.false_eq_true, if_false, FS.set]

theorem afterRename_apply (env : Env) (fs : FS) (a p : String)
    (hrm : env.fails .Remove = false) (hst : env.fails .Stat = false)
    (hrn : env.fails .Rename = false) :
    (afterRename env fs a).1 p =
      (if p = oldFilePath a then fs a else if p = a then none else fs p) ∧
    (afterRename env fs a).2 = (fs a).isSome := by
  have hne := oldFilePath_ne a
  have h1a : afterRemove env fs a a = fs a := by
    rw [afterRemove_apply env fs a a hrm, if_neg (Ne.symm hne)]
  unfold afterRename osStat osRename
  simp only [h1a]
  cases h : fs a with
  | none =>
    simp only [Option.isSome_none, and_true]
    rw [afterRemove_apply env fs a p hrm]
    by_cases hp : p = oldFilePath a
    · simp [hp]
    · by_cases hpa : p = a
      · simp [hp, hpa, h]
      · simp [hp, hpa]
  | some f =>
    simp only [hst, hrn, Bool.false_eq_true, if_false, Option.isSome_some, and_true, FS.set]
    by_cases hp : p = oldFilePath a
    · simp [hp]
    · by_cases hpa : p = a
      · simp [hp, hpa]
      · simp only [hp, hpa, if_false]
        rw [afterRemove_apply env fs a p hrm, if_neg hp]

theorem emit_target (w : ZipWriter) (n : Nat) : (w.emit n).target = w.target := by
  unfold ZipWriter.emit
  cases h : w.target with
  | none => simp only; split_ifs <;> simp [h]
  | some p => simp [h]

theorem emit_files (w : ZipWriter) (n : Nat) : (w.emit n).files = w.files := by
  unfold ZipWriter.emit
  cases h : w.target with
  | none => simp only; split_ifs <;> rfl
  | some p => rfl

theorem emit_lastOpen (w : ZipWriter) (n : Nat) : (w.emit n).lastOpen = w.lastOpen := by
  unfold ZipWriter.emit
  cases h : w.target with
  | none => simp only; split_ifs <;> rfl
  | some p => rfl

theorem emit_of_target (w : ZipWriter) (n : Nat) (p : String) (h : w.target = some p) :
    w.emit n = w := by
  unfold ZipWriter.emit
  rw [h]

theorem closeLast_target (env : Env) (w : ZipWriter) :
    (w.closeLast env).target = w.target := by
  unfold ZipWriter.closeLast
  split_ifs
  · split
    · simp [emit_target]
    · rfl
  · rfl

theorem closeLast_files (env : Env) (w : ZipWriter) :
    (w.closeLast env).files = w.files := by
  unfold ZipWriter.closeLast
  split_ifs
  · split
    · simp [emit_files]
    · rfl
  · rfl

theorem closeLast_broken (env : Env) (w : ZipWriter) (p : String) (h : w.target = some p) :
    (w.closeLast env).broken = w.broken := by
  unfold ZipWriter.closeLast
  split_ifs
  · split
    · simp [emit_of_target w _ p h]
    · rfl
  · rfl

theorem CreateHeader_target (env : Env) (w : ZipWriter) (header : FileHeader) :
    (w.CreateHeader env header).1.target = w.target := by
  unfold ZipWriter.CreateHeader
  simp only
  split_ifs <;> simp [emit_target, closeLast_target]

theorem Copy_target (env : Env) (w : ZipWriter) (b : Bool) (data : Bytes) :
    (w.Copy env b data).1.target = w.target := by
  unfold ZipWriter.Copy
  simp [emit_target]

/-- With a file behind the writer `CreateHeader` succeeds and adds an empty entry. -/
theorem CreateHeader_of_target (env : Env) (w : ZipWriter) (header : FileHeader) (p : String)
    (ht : w.target = some p) (hb : w.broken = false) :
    (w.CreateHeader env header).2 = true ∧
    (w.CreateHeader env header).1.files =
      w.files ++ [{ header := { header with UncompressedSize64 := 0 }, data := [] }] ∧
    (w.CreateHeader env header).1.broken = false := by
  have ht1 : (w.closeLast env).target = some p := by rw [closeLast_target, ht]
  have hb1 : (w.closeLast env).broken = false := by rw [closeLast_broken env w p ht, hb]
  unfold ZipWriter.CreateHeader
  simp only [emit_of_target _ _ p ht1, hb1, Bool.false_eq_true, if_false, closeLast_files,
    and_self]

theorem setLastData_append (l : List ZipEntry) (e : ZipEntry) (data : Bytes) :
    setLastData (l ++ [e]) data =
      l ++ [{ header := { e.header with UncompressedSize64 := data.length }, data := data }] := by
  unfold setLastData
  simp [List.dropLast_concat]

/-- With a file behind the writer and no read error `io.Copy` succeeds and
gives the open entry its data. -/
theorem Copy_of_target (env : Env) (w : ZipWriter) (data : Bytes) (p : String)
    (l : List ZipEntry) (e : ZipEntry)
    (ht : w.target = some p) (hb : w.broken = false) (hf : w.files = l ++ [e]) :
    (w.Copy env false data).2 = true ∧
    (w.Copy env false data).1.files =
      l ++ [{ header := { e.header with UncompressedSize64 := data.length }, data := data }] ∧
    (w.Copy env false data).1.broken = false := by
  unfold ZipWriter.Copy
  simp [emit_of_target w _ p ht, hb, hf, setLastData_append]

theorem copyItem_target (env : Env) (w : ZipWriter) (i : Nat) (e : ZipEntry) :
    (copyItem env w i e).1.target = w.target := by
  unfold copyItem
  simp only
  split_ifs <;> simp [Copy_target, CreateHeader_target]

theorem copyItems_target (env : Env) (es : List ZipEntry) : ∀ (w : ZipWriter) (i : Nat),
    (copyItems env w i es).1.target = w.target := by
  induction es with
  | nil => intro w i; rfl
  | cons e rest ih =>
    intro w i
    simp only [copyItems]
    split_ifs
    · exact copyItem_target env w i e
    · rw [ih]; exact copyItem_target env w i e

/-- One iteration of the copy loop with a file behind the writer and no failing
`io.Copy`: when it does not panic, it adds the copy of the entry. -/
theorem copyItem_of_target (env : Env) (w : ZipWriter) (i : Nat) (e : ZipEntry) (p : String)
    (ht : w.target = some p) (hb : w.broken = false)
    (hcp : env.fails (.CopyItem i) = false)
    (hok : (copyItem env w i e).2 = false) :
    (copyItem env w i e).1.files = w.files ++ [copiedEntry e] ∧
    (copyItem env w i e).1.broken = false := by
  obtain ⟨c1, c2, c3⟩ := CreateHeader_of_target env w
    { FileInfoHeader (e.FileInfo env) with Name := e.header.Name } p ht hb
  have c4 := CreateHeader_target env w
    { FileInfoHeader (e.FileInfo env) with Name := e.header.Name }
  rw [ht] at c4
  unfold copyItem at hok ⊢
  simp only [c1, if_true] at hok ⊢
  split_ifs at hok ⊢ with h1 h2
  all_goals first
    | (exfalso; simp at hok; done)
    | (simp only [hcp]
       obtain ⟨d1, d2, d3⟩ := Copy_of_target env _ e.data p _ _ c4 c3 c2
       refine ⟨?_, d3⟩
       rw [d2]
       simp [copiedEntry, FileInfoHeader, ZipEntry.FileInfo])

theorem copyItems_of_target (env : Env) (hcp : ∀ i, env.fails (.CopyItem i) = false)
    (p : String) (es : List ZipEntry) : ∀ (w : ZipWriter) (i : Nat),
    w.target = some p → w.broken = false → (copyItems env w i es).2 = false →
    (copyItems env w i es).1.files = w.files ++ es.map copiedEntry ∧
    (copyItems env w i es).1.broken = false := by
  induction es with
  | nil => intro w i _ hb _; simp [copyItems, hb]
  | cons e rest ih =>
    intro w i ht hb hok
    simp only [copyItems] at hok ⊢
    split_ifs at hok ⊢ with h1
    · have h1' : (copyItem env w i e).2 = false := by simpa using h1
      obtain ⟨c1, c2⟩ := copyItem_of_target env w i e p ht hb (hcp i) h1'
      obtain ⟨a, b⟩ := ih _ (i + 1) (by rw [copyItem_target, ht]) c2 hok
      refine ⟨?_, b⟩
      rw [a, c1]
      simp

theorem AddFileToZip_target (env : Env) (fs : FS) (w : ZipWriter) (F : String) :
    (AddFileToZip env fs w F).1.target = w.target := by
  unfold AddFileToZip
  cases fs F with
  | none => rfl
  | some f =>
    simp only
    split_ifs <;> simp [Copy_target, CreateHeader_target]

theorem AddFileToZip_mem (env : Env) (fs : FS) (w : ZipWriter) (F : String) (e : Error)
    (h : (AddFileToZip env fs w F).2 = some e) : e ∈ appendCalls := by
  unfold AddFileToZip at h
  unfold appendCalls
  cases hF : fs F with
  | none => rw [hF] at h; simp at h; subst h; simp
  | some f =>
    rw [hF] at h
    simp only at h
    split_ifs at h <;> simp at h <;> subst h <;> simp

theorem AddFileToZip_nil_iff (env : Env) (fs : FS) (w : ZipWriter) (F : String) :
    (AddFileToZip env fs w F).2 = none ↔ AppendSucceeds env fs w F := by
  unfold AddFileToZip AppendSucceeds
  cases hF : fs F with
  | none => simp
  | some f =>
    simp only [Option.some.injEq, exists_eq_left', appendHeader]
    split_ifs with h1 h2 h3 h4 h5 h6 <;> simp_all

theorem Copy_snd_of_target (env : Env) (w : ZipWriter) (b : Bool) (data : Bytes) (p : String)
    (ht : w.target = some p) (hb : w.broken = false) :
    (w.Copy env b data).2 = !b ∧ (w.Copy env b data).1.broken = false := by
  unfold ZipWriter.Copy
  simp [emit_of_target w _ p ht, hb]

/-- With a file behind the writer the result of `AddFileToZip` is decided by
the file and the failures of its own calls. -/
theorem AddFileToZip_result_of_target (env : Env) (fs : FS) (w : ZipWriter) (F p : String)
    (ht : w.target = some p) (hb : w.broken = false) :
    (AddFileToZip env fs w F).2 =
      (if fs F = none ∨ env.fails .Open = true then some Call.Open
       else if env.fails .FileStat = true then some Call.FileStat
       else if env.fails .FileInfoHeader = true then some Call.FileInfoHeader
       else if env.fails .CreateHeader = true then some Call.CreateHeader
       else if env.fails .Copy = true then some Call.Copy
       else none) := by
  unfold AddFileToZip
  cases hF : fs F with
  | none => simp
  | some f =>
    simp only [reduceCtorEq, false_or]
    split_ifs with h1 h2 h3 h4 h5 h6 h7 h8 h9 <;> try rfl
    all_goals
      first
      | (exfalso
         have c := CreateHeader_of_target env w
           { FileInfoHeader (fileInfo env F f) with Name := F, Method := Deflate } p ht hb
         have c4 := CreateHeader_target env w
           { FileInfoHeader (fileInfo env F f) with Name := F, Method := Deflate }
         rw [ht] at c4
         have d := Copy_snd_of_target env _ (env.fails .Copy) (fileBytes env f) p c4 c.2.2
         simp_all)

theorem AddFileToZip_files_of_nil (env : Env) (fs : FS) (w : ZipWriter) (F p : String)
    (ht : w.target = some p) (hb : w.broken = false)
    (h : (AddFileToZip env fs w F).2 = none) :
    ∃ f, fs F = some f ∧ (AddFileToZip env fs w F).1.files = w.files ++ [addedEntry env F f] := by
  obtain ⟨f, ⟨hF, ho⟩, hs, ⟨hi, hc, hch⟩, hcp⟩ := (AddFileToZip_nil_iff env fs w F).mp h
  refine ⟨f, hF, ?_⟩
  obtain ⟨c1, c2, c3⟩ := CreateHeader_of_target env w (appendHeader env F f) p ht hb
  have c4 := CreateHeader_target env w (appendHeader env F f)
  rw [ht] at c4
  have d := (Copy_snd_of_target env _ (env.fails .Copy) (fileBytes env f) p c4 c3).1
  rw [hcp] at d
  have hcopy : env.fails .Copy = false := by
    cases hx : env.fails .Copy with
    | false => rfl
    | true => rw [hx] at d; simp at d
  obtain ⟨d1, d2, d3⟩ := Copy_of_target env _ (fileBytes env f) p _ _ c4 c3 c2
  have hdef : (AddFileToZip env fs w F).1 =
      ((w.CreateHeader env (appendHeader env F f)).1.Copy env false (fileBytes env f)).1 := by
    unfold AddFileToZip
    simp only [hF, ho, hs, hi, hc, Bool.false_eq_true, if_false]
    unfold appendHeader at hch d1 ⊢
    simp only [hch, if_true, hcopy, d1]
  rw [hdef, d2]
  simp [addedEntry, appendHeader, FileInfoHeader, fileInfo]

theorem copyItem_broken_of_target (env : Env) (w : ZipWriter) (i : Nat) (e : ZipEntry)
    (p : String) (ht : w.target = some p) (hb : w.broken = false) :
    (copyItem env w i e).1.broken = false := by
  obtain ⟨c1, c2, c3⟩ := CreateHeader_of_target env w
    { FileInfoHeader (e.FileInfo env) with Name := e.header.Name } p ht hb
  have c4 := CreateHeader_target env w
    { FileInfoHeader (e.FileInfo env) with Name := e.header.Name }
  rw [ht] at c4
  unfold copyItem
  simp only [c1, if_true]
  split_ifs
  · exact hb
  · exact (Copy_snd_of_target env _ _ _ p c4 c3).2
  · exact c3

theorem copyItems_broken_of_target (env : Env) (p : String) (es : List ZipEntry) :
    ∀ (w : ZipWriter) (i : Nat), w.target = some p → w.broken = false →
    (copyItems env w i es).1.broken = false := by
  induction es with
  | nil => intro w i _ hb; exact hb
  | cons e rest ih =>
    intro w i ht hb
    simp only [copyItems]
    have h1 := copyItem_broken_of_target env w i e p ht hb
    split_ifs
    · exact h1
    · exact ih _ _ (by rw [copyItem_target, ht]) h1

theorem osCreate_fs_other (env : Env) (fs : FS) (a p : String) (h : p ≠ a) :
    (osCreate env fs a).1 p = fs p := by
  unfold osCreate
  by_cases hc : env.fails .Create = true
  · simp [hc]
  · simp [hc, FS.set, h]

theorem osCreate_target (env : Env) (fs : FS) (a : String) :
    (osCreate env fs a).2 = none ∨ (osCreate env fs a).2 = some a := by
  unfold osCreate
  by_cases hc : env.fails .Create = true
  · left; simp [hc]
  · right; simp [hc]

theorem osCreate_ok (env : Env) (fs : FS) (a : String) (hc : env.fails .Create = false) :
    (osCreate env fs a).2 = some a ∧ (osCreate env fs a).1 a ≠ none := by
  unfold osCreate
  simp [hc, FS.set]

theorem prepare_fst (env : Env) (fs : FS) (a : String) :
    (prepare env fs a).1 = (osCreate env (afterRename env fs a).1 a).1 := by
  unfold prepare
  simp only
  split
  · split <;> rfl
  · rfl

theorem prepare_target (env : Env) (fs : FS) (a : String) :
    (prepare env fs a).2.1.target = (osCreate env (afterRename env fs a).1 a).2 := by
  unfold prepare
  simp only
  split
  · split
    · simp only [copyItems_target, NewWriter]
    · rfl
  · rfl

theorem prepare_broken (env : Env) (fs : FS) (a : String) (hc : env.fails .Create = false) :
    (prepare env fs a).2.1.broken = false := by
  have ht := (osCreate_ok env (afterRename env fs a).1 a hc).1
  unfold prepare
  simp only
  split
  · split
    · exact copyItems_broken_of_target env a _ _ _ (by simp [NewWriter, ht]) rfl
    · rfl
  · rfl

/-- The filesystem that `AddFileToZip` sees agrees with the one `doZip` was
called on, away from the archive and the staging name. -/
theorem prepare_fs_other (env : Env) (fs : FS) (a p : String)
    (hpa : p ≠ a) (hps : p ≠ oldFilePath a) : (prepare env fs a).1 p = fs p := by
  have hrm : (afterRemove env fs a) p = fs p := by
    unfold afterRemove osRemove
    cases fs (oldFilePath a) with
    | none => rfl
    | some f =>
      by_cases h : env.fails .Remove = true
      · simp [h]
      · simp [h, FS.set, hps]
  have hrn : (afterRename env fs a).1 p = fs p := by
    cases h1 : afterRemove env fs a a with
    | none => simpa [afterRename, osStat, osRename, h1] using hrm
    | some f =>
      by_cases h2 : env.fails .Stat = true
      · simpa [afterRename, osStat, osRename, h1, h2] using hrm
      · by_cases h3 : env.fails .Rename = true
        · simpa [afterRename, osStat, osRename, h1, h2, h3] using hrm
        · simpa [afterRename, osStat, osRename, h1, h2, h3, FS.set, hpa, hps] using hrm
  rw [prepare_fst, osCreate_fs_other _ _ _ _ hpa]
  exact hrn

theorem doZip_exit (env : Env) (fs : FS) (a F : String) :
    (doZip env fs a F).2 =
      if (prepare env fs a).2.2 = true then Exit.panicked
      else Exit.returned (AddFileToZip env (prepare env fs a).1 (prepare env fs a).2.1 F).2 := by
  unfold doZip
  simp only
  split_ifs <;> rfl

theorem doZip_fs (env : Env) (fs : FS) (a F : String) :
    (doZip env fs a F).1 = closeWriter env (prepare env fs a).1
      (if (prepare env fs a).2.2 = true then (prepare env fs a).2.1
       else (AddFileToZip env (prepare env fs a).1 (prepare env fs a).2.1 F).1) := by
  unfold doZip
  simp only
  split_ifs <;> rfl

/-- What the staging name holds when `doZip` has ended. -/
theorem doZip_staging (env : Env) (fs : FS) (a F : String)
    (hrm : env.fails .Remove = false) (hst : env.fails .Stat = false)
    (hrn : env.fails .Rename = false) :
    (doZip env fs a F).1 (oldFilePath a) = fs a := by
  have hne := oldFilePath_ne a
  have hprep : (prepare env fs a).1 (oldFilePath a) = fs a := by
    rw [prepare_fst, osCreate_fs_other _ _ _ _ hne,
      (afterRename_apply env fs a (oldFilePath a) hrm hst hrn).1, if_pos rfl]
  have htar : ∀ w : ZipWriter, w.target = (osCreate env (afterRename env fs a).1 a).2 →
      closeWriter env (prepare env fs a).1 w (oldFilePath a) = fs a := by
    intro w hw
    unfold closeWriter
    rcases osCreate_target env (afterRename env fs a).1 a with h | h
    · rw [hw, h]; exact hprep
    · rw [hw, h]
      simp only
      rw [FS.set_other _ _ _ _ hne]
      exact hprep
  rw [doZip_fs]
  split_ifs
  · exact htar _ (prepare_target env fs a)
  · exact htar _ (by rw [AddFileToZip_target, prepare_target])

/-- With no fault before the append and no panic, the writer handed to
`AddFileToZip` writes to the archive name and holds the copies of the previous
entries. -/
theorem prepare_quiet (env : Env) (fs : FS) (a : String) (es : List ZipEntry)
    (hq : NoEarlyFaults env)
    (hprev : (fs a = none ∧ es = []) ∨ ∃ prev, fs a = some prev ∧ prev.content = .archive es)
    (hok : (prepare env fs a).2.2 = false) :
    (prepare env fs a).2.1.target = some a ∧
    (prepare env fs a).2.1.files = es.map copiedEntry := by
  obtain ⟨hrm, hst, hrn, hcr, hor, hcp⟩ := hq
  have hne := oldFilePath_ne a
  have htar : (osCreate env (afterRename env fs a).1 a).2 = some a :=
    (osCreate_ok env _ a hcr).1
  constructor
  · rw [prepare_target, htar]
  · have hflag := (afterRename_apply env fs a a hrm hst hrn).2
    have hold := (afterRename_apply env fs a (oldFilePath a) hrm hst hrn).1
    rw [if_pos rfl] at hold
    have hold3 : (osCreate env (afterRename env fs a).1 a).1 (oldFilePath a) = fs a := by
      rw [osCreate_fs_other _ _ _ _ hne, hold]
    unfold prepare at hok ⊢
    simp only at hok ⊢
    rcases hprev with ⟨hnone, hes⟩ | ⟨prev, hsome, hcontent⟩
    · rw [hnone] at hflag
      simp only [Option.isSome_none] at hflag
      simp [hflag, NewWriter, hes]
    · rw [hsome] at hflag hold3
      simp only [Option.isSome_some] at hflag
      have hopen : OpenReader env (osCreate env (afterRename env fs a).1 a).1 (oldFilePath a) =
          .ok es := by
        unfold OpenReader
        rw [hold3]
        simp [hcontent, hor]
      simp only [hflag, if_true, hopen] at hok ⊢
      have := (copyItems_of_target env hcp a es (NewWriter (some a)) 0 rfl rfl
        (by rw [← htar]; exact hok)).1
      rw [htar, this]
      simp [NewWriter]

/-! ## Claims about the archive commit -/

/-- C2, as stated, fails when the committed file is the staging name or the
archive itself. First case: an empty archive at `ZIPARCHIV` and a readable
file with bytes `[1, 2, 3]` at the staging name; `doZip` returns nil, and the
one entry of the new archive holds the bytes of the old archive, not `[1, 2, 3]`.
Second case: the archive is committed into itself; `doZip` returns nil and the
final entry holds the bytes found in the new file, to which nothing has been
flushed yet, not those of the archive. -/
theorem staged_file_not_archived :
    (clashFS (oldFilePath ZIPARCHIV) = some (plainFile [1, 2, 3]) ∧
     contentAt clashFS ZIPARCHIV = some (.archive []) ∧
     (doZip quietEnv clashFS ZIPARCHIV (oldFilePath ZIPARCHIV)).2 = .returned none ∧
     contentAt (doZip quietEnv clashFS ZIPARCHIV (oldFilePath ZIPARCHIV)).1
         ZIPARCHIV =
       some (.archive [⟨⟨oldFilePath ZIPARCHIV, 1, 438, Deflate, 22⟩, emptyArchiveBytes⟩]) ∧
     emptyArchiveBytes ≠ [1, 2, 3]) ∧
    (onlyArchive ZIPARCHIV = some (archiveFile []) ∧
     fileBytes quietEnv (archiveFile []) = emptyArchiveBytes ∧
     (doZip quietEnv onlyArchive ZIPARCHIV ZIPARCHIV).2 = .returned none ∧
     contentAt (doZip quietEnv onlyArchive ZIPARCHIV ZIPARCHIV).1
         ZIPARCHIV =
       some (.archive [⟨⟨ZIPARCHIV, 0, 438, Deflate, 0⟩, []⟩]) ∧
     emptyArchiveBytes ≠ []) := by
  decide

/-- C2, amended: let no call before the append fail, let `F` be neither the
archive name `a` nor the staging name, let `F` be a file of the filesystem and
let `a` hold no file (`es = []`) or an archive with entries `es`. When
`doZip a F` returns nil, the file at `a` is an archive of `es.length + 1`
entries: the names and bytes of `es` in order, then one entry named `F` with
the bytes of `F`. -/
theorem archive_merge_appends (env : Env) (fs : FS) (a F : String) (es : List ZipEntry)
    (f : File) (hquiet : NoEarlyFaults env) (hFa : F ≠ a) (hFs : F ≠ oldFilePath a)
    (hprev : (fs a = none ∧ es = []) ∨ ∃ prev, fs a = some prev ∧ prev.content = .archive es)
    (hF : fs F = some f) (hnil : (doZip env fs a F).2 = .returned none) :
    ∃ file new, (doZip env fs a F).1 a = some file ∧ file.content = .archive new ∧
      new.length = es.length + 1 ∧
      new.map (fun e => e.header.Name) = es.map (fun e => e.header.Name) ++ [F] ∧
      new.map (fun e => e.data) = es.map (fun e => e.data) ++ [fileBytes env f] := by
  rw [doZip_exit] at hnil
  have hok : (prepare env fs a).2.2 = false := by
    cases hp : (prepare env fs a).2.2 with
    | false => rfl
    | true => rw [hp] at hnil; simp at hnil
  rw [hok] at hnil
  simp only [Bool.false_eq_true, if_false, Exit.returned.injEq] at hnil
  obtain ⟨htarget, hfiles⟩ := prepare_quiet env fs a es hquiet hprev hok
  have hbroken := prepare_broken env fs a hquiet.2.2.2.1
  obtain ⟨f', hf', hw⟩ := AddFileToZip_files_of_nil env _ _ F a htarget hbroken hnil
  rw [prepare_fs_other env fs a F hFa hFs, hF] at hf'
  cases hf'
  refine ⟨{ content := .archive ((es.map copiedEntry) ++ [addedEntry env F f]),
            modTime := env.now, mode := 438 },
    (es.map copiedEntry) ++ [addedEntry env F f], ?_, rfl, ?_, ?_, ?_⟩
  · rw [doZip_fs, hok]
    simp only [Bool.false_eq_true, if_false]
    unfold closeWriter
    rw [AddFileToZip_target, htarget]
    simp only [hw, hfiles]
    rw [FS.set_same]
  · simp
  · simp [copiedEntry, addedEntry, Function.comp_def]
  · simp [copiedEntry, addedEntry, Function.comp_def]

/-- Witness of C2 amended: `b.xml` is committed into an archive that holds `a.xml`. -/
theorem archive_merge_appends_witness :
    ∃ file new,
      (doZip quietEnv
        (FS.ofList [(ZIPARCHIV, archiveFile [⟨⟨"a.xml", 1, 420, Deflate, 3⟩, [1, 2, 3]⟩]),
                    ("b.xml", plainFile [4, 5])])
        ZIPARCHIV "b.xml").1 ZIPARCHIV = some file ∧
      file.content = .archive new ∧
      new.length = [(⟨⟨"a.xml", 1, 420, Deflate, 3⟩, [1, 2, 3]⟩ : ZipEntry)].length + 1 ∧
      new.map (fun e => e.header.Name) =
        [(⟨⟨"a.xml", 1, 420, Deflate, 3⟩, [1, 2, 3]⟩ : ZipEntry)].map (fun e => e.header.Name)
          ++ ["b.xml"] ∧
      new.map (fun e => e.data) =
        [(⟨⟨"a.xml", 1, 420, Deflate, 3⟩, [1, 2, 3]⟩ : ZipEntry)].map (fun e => e.data)
          ++ [fileBytes quietEnv (plainFile [4, 5])] :=
  archive_merge_appends quietEnv
    (FS.ofList [(ZIPARCHIV, archiveFile [⟨⟨"a.xml", 1, 420, Deflate, 3⟩, [1, 2, 3]⟩]),
                ("b.xml", plainFile [4, 5])])
    ZIPARCHIV "b.xml" [⟨⟨"a.xml", 1, 420, Deflate, 3⟩, [1, 2, 3]⟩] (plainFile [4, 5])
    ⟨rfl, rfl, rfl, rfl, rfl, fun _ => rfl⟩ (by decide) (by decide)
    (Or.inr ⟨archiveFile [⟨⟨"a.xml", 1, 420, Deflate, 3⟩, [1, 2, 3]⟩], by decide, rfl⟩)
    (by decide) (by decide)

/-- C4, as stated, fails in three ways. A failure of an earlier step changes the
returned value when the committed file is the staging name: with no archive and
a file at the staging name, `doZip` returns the open error when `os.Remove`
succeeds (the file is gone) and nil when `os.Remove` fails. A failing
`os.Create` changes it for an ordinary file: the previous archive holds one
entry of 5000 bytes and `b.xml` is committed; `doZip` returns nil when
`os.Create` succeeds, and the error of `CreateHeader` when it fails, because the
copy of the entry has passed the 4096 bytes the buffer in front of the nil file
can hold. And `doZip` need not return: with a previous entry of method 12 the
dropped error of `zipItem.Open()` leaves a nil reader and `io.Copy` panics. -/
theorem earlier_failure_changes_result :
    (staleFS (oldFilePath ZIPARCHIV) = some (plainFile [1, 2, 3]) ∧
     staleFS ZIPARCHIV = none ∧
     (doZip quietEnv staleFS ZIPARCHIV (oldFilePath ZIPARCHIV)).2 =
       .returned (some Call.Open) ∧
     (doZip removeFailsEnv staleFS ZIPARCHIV (oldFilePath ZIPARCHIV)).2 = .returned none) ∧
    (bigArchiveFS "b.xml" = some (plainFile [4, 5]) ∧
     (doZip quietEnv bigArchiveFS ZIPARCHIV "b.xml").2 = .returned none ∧
     (doZip createFailsEnv bigArchiveFS ZIPARCHIV "b.xml").2 =
       .returned (some Call.CreateHeader)) ∧
    (doZip quietEnv oddArchiveFS ZIPARCHIV "b.xml").2 = .panicked := by
  refine ⟨by decide, ⟨by decide, by decide!, by decide!⟩, by decide⟩

/-- C4, amended. `doZip a F` fails to return exactly when the copy loop panics.
When it returns, the returned value is the one `AddFileToZip` produces for `F`;
it is nil if and only if opening, stat-ing, creating the header for and copying
`F` all succeed; and a returned error is the error of one of `AddFileToZip`'s
calls, never of an earlier one. Failures of the earlier steps other than
`os.Create` do not change the returned value when `F` is not the staging name
and the new archive file is created: two runs on the same filesystem that both
return and differ only in which earlier calls fail return the same value. -/
theorem doZip_returns_append_result (env : Env) (fs : FS) (a F : String) :
    ((doZip env fs a F).2 = .panicked ↔ (prepare env fs a).2.2 = true) ∧
    (∀ r, (doZip env fs a F).2 = .returned r →
      r = (AddFileToZip env (prepare env fs a).1 (prepare env fs a).2.1 F).2 ∧
      (r = none ↔ AppendSucceeds env (prepare env fs a).1 (prepare env fs a).2.1 F) ∧
      ∀ e, r = some e → e ∈ appendCalls) ∧
    (∀ (fails' : Call → Bool) (r r' : Option Error),
      F ≠ oldFilePath a → env.fails .Create = false → fails' .Create = false →
      (∀ c ∈ appendCalls, fails' c = env.fails c) →
      (doZip env fs a F).2 = .returned r →
      (doZip { env with fails := fails' } fs a F).2 = .returned r' → r' = r) := by
  have hret : ∀ (v : Env) (r : Option Error), (doZip v fs a F).2 = .returned r →
      r = (AddFileToZip v (prepare v fs a).1 (prepare v fs a).2.1 F).2 := by
    intro v r h
    rw [doZip_exit] at h
    split_ifs at h
    simpa using h.symm
  refine ⟨?_, ?_, ?_⟩
  · rw [doZip_exit]
    split_ifs with h
    · simp [h]
    · simp [h]
  · intro r h
    have hr := hret env r h
    refine ⟨hr, ?_, ?_⟩
    · rw [hr]; exact AddFileToZip_nil_iff env _ _ F
    · intro e he
      rw [hr] at he
      exact AddFileToZip_mem env _ _ F e he
  · intro fails' r r' hFs hc hc' hsame h h'
    have hchain : ∀ (v : Env), v.fails .Create = false →
        (AddFileToZip v (prepare v fs a).1 (prepare v fs a).2.1 F).2 =
          (if (F ≠ a ∧ fs F = none) ∨ v.fails .Open = true then some Call.Open
           else if v.fails .FileStat = true then some Call.FileStat
           else if v.fails .FileInfoHeader = true then some Call.FileInfoHeader
           else if v.fails .CreateHeader = true then some Call.CreateHeader
           else if v.fails .Copy = true then some Call.Copy
           else none) := by
      intro v hv
      have ht : (prepare v fs a).2.1.target = some a := by
        rw [prepare_target]; exact (osCreate_ok v _ a hv).1
      rw [AddFileToZip_result_of_target v _ _ F a ht (prepare_broken v fs a hv)]
      have hF : (prepare v fs a).1 F = none ↔ (F ≠ a ∧ fs F = none) := by
        by_cases hFa : F = a
        · subst hFa
          have := (osCreate_ok v (afterRename v fs F).1 F hv).2
          rw [prepare_fst]
          simp [this]
        · rw [prepare_fs_other v fs a F hFa hFs]
          simp [hFa]
      simp only [hF]
    rw [hret env r h, hret _ r' h', hchain env hc, hchain { env with fails := fails' } hc']
    simp only [hsame .Open (by simp [appendCalls]), hsame .FileStat (by simp [appendCalls]),
      hsame .FileInfoHeader (by simp [appendCalls]),
      hsame .CreateHeader (by simp [appendCalls]), hsame .Copy (by simp [appendCalls])]

/-- Witness of C4 amended: `b.xml` is committed into an archive that holds
`a.xml`, once with no failure and once with a failing `os.Rename`. Both runs
return nil; they leave different archives. -/
theorem doZip_returns_append_result_witness :
    contentAt (doZip quietEnv smallArchiveFS ZIPARCHIV "b.xml").1 ZIPARCHIV ≠
      contentAt (doZip renameFailsEnv smallArchiveFS ZIPARCHIV "b.xml").1 ZIPARCHIV ∧
    ((none : Option Error) =
        (AddFileToZip quietEnv (prepare quietEnv smallArchiveFS ZIPARCHIV).1
          (prepare quietEnv smallArchiveFS ZIPARCHIV).2.1 "b.xml").2 ∧
      ((none : Option Error) = none ↔
        AppendSucceeds quietEnv (prepare quietEnv smallArchiveFS ZIPARCHIV).1
          (prepare quietEnv smallArchiveFS ZIPARCHIV).2.1 "b.xml") ∧
      ∀ e, (none : Option Error) = some e → e ∈ appendCalls) ∧
    (none : Option Error) = none :=
  ⟨by decide,
   (doZip_returns_append_result quietEnv smallArchiveFS ZIPARCHIV "b.xml").2.1 none
     (by decide),
   (doZip_returns_append_result quietEnv smallArchiveFS ZIPARCHIV "b.xml").2.2
     renameFailsEnv.fails none none (by decide) (by decide) (by decide) (by decide)
     (by decide) (by decide)⟩

/-- C6, evaluated on the code: `a.xml` is committed into a new archive and gets
the method `Deflate`; the commit of `b.xml` that follows copies that entry with
the method `Store`. Name, modification time, mode and bytes are kept. -/
theorem copied_entry_loses_deflate :
    contentAt (doZip quietEnv twoFiles ZIPARCHIV "a.xml").1 ZIPARCHIV =
      some (.archive [⟨⟨"a.xml", 1, 420, Deflate, 3⟩, [1, 2, 3]⟩]) ∧
    contentAt (doZip quietEnv (doZip quietEnv twoFiles ZIPARCHIV "a.xml").1
        ZIPARCHIV "b.xml").1 ZIPARCHIV =
      some (.archive [⟨⟨"a.xml", 1, 420, Store, 3⟩, [1, 2, 3]⟩,
                      ⟨⟨"b.xml", 1, 420, Deflate, 2⟩, [4, 5]⟩]) ∧
    Store ≠ Deflate := by
  decide

/-- C10, as stated, fails: after the commit of `a.xml` and then of `b.xml` have
returned, the staging name holds a file, the archive as the first commit left it. -/
theorem staging_file_left_behind :
    (doZip quietEnv twoFiles ZIPARCHIV "a.xml").1 (oldFilePath ZIPARCHIV) = none ∧
    contentAt (doZip quietEnv (doZip quietEnv twoFiles ZIPARCHIV "a.xml").1
        ZIPARCHIV "b.xml").1 (oldFilePath ZIPARCHIV) =
      some (.archive [⟨⟨"a.xml", 1, 420, Deflate, 3⟩, [1, 2, 3]⟩]) ∧
    (doZip quietEnv (doZip quietEnv twoFiles ZIPARCHIV "a.xml").1
        ZIPARCHIV "b.xml").1 (oldFilePath ZIPARCHIV) ≠ none := by
  decide

/-- C10, amended: when `os.Remove`, `os.Stat` and `os.Rename` do not fail without
cause, no file is at the staging name right after the `os.Remove` at the start
of `doZip`, and when `doZip` has returned the staging name holds exactly what
the archive name held before the call: a file is there if and only if an
archive file existed before. -/
theorem staging_holds_previous_archive (env : Env) (fs : FS) (a F : String)
    (hrm : env.fails .Remove = false) (hst : env.fails .Stat = false)
    (hrn : env.fails .Rename = false) :
    afterRemove env fs a (oldFilePath a) = none ∧
    (doZip env fs a F).1 (oldFilePath a) = fs a ∧
    ((doZip env fs a F).1 (oldFilePath a) ≠ none ↔ fs a ≠ none) := by
  refine ⟨?_, doZip_staging env fs a F hrm hst hrn, ?_⟩
  · rw [afterRemove_apply env fs a _ hrm, if_pos rfl]
  · rw [doZip_staging env fs a F hrm hst hrn]

/-- Witness of C10 amended: a stale staging file and an empty archive before the call. -/
theorem staging_holds_previous_archive_witness :
    afterRemove quietEnv clashFS ZIPARCHIV (oldFilePath ZIPARCHIV) = none ∧
    (doZip quietEnv clashFS ZIPARCHIV "a.xml").1 (oldFilePath ZIPARCHIV) =
      clashFS ZIPARCHIV ∧
    ((doZip quietEnv clashFS ZIPARCHIV "a.xml").1 (oldFilePath ZIPARCHIV) ≠ none
      ↔ clashFS ZIPARCHIV ≠ none) :=
  staging_holds_previous_archive quietEnv clashFS ZIPARCHIV "a.xml" rfl rfl rfl

end XmlArchiver
